import Mathlib

/-!
Verification of the allocation engine of the room-allocation system.

The development shallowly embeds the Python modules `logic/allocation.py`,
`utils/helpers.py` and `data/models.py`.

Modelling conventions, fixed once and used throughout:

* Randomness.  The Python code calls `random.shuffle` to reorder each
  preference group (after the stable descending sort by priority score),
  to reorder the Oasis people, and to reorder each person preferred-day
  list.  Every such reordering produces some permutation of the list it is
  applied to, so the embedding abstracts each reordering as an explicit
  function parameter, and every theorem quantifies over all parameter
  values that are permutations (hypotheses of the form
  `∀ l, (order l).Perm l`).  A theorem proved under these hypotheses holds
  for every outcome of the sort and of the random shuffles.  Witnesses
  instantiate the parameters with the identity function.

* Clock and dates.  `datetime.now()` and the derived `date_map` from
  `get_current_week_dates` are external inputs; they are passed in as a
  `date_map : String → String` (weekday name to ISO date) and a
  `now : String` (the `created_at` stamp).  `get_current_week_dates`
  always yields exactly the five weekday names as keys, which is the only
  fact about it the code under verification uses.

* Timestamps.  `datetime.fromisoformat(s).timestamp()` is abstracted as a
  rational number of seconds since the epoch (`Option ℚ`; `none` models a
  string that fails to parse, the `except` branch of the Python code).
  Python float arithmetic is modelled by exact rational arithmetic.

* Python dicts keyed by known finite key sets (`room_usage`,
  `daily_allocations`, `person_allocations`) are modelled as total
  functions; the code only ever reads and writes the keys the dict was
  initialised with.  Dicts used for grouping with insertion order
  (`room_usage` and `oasis_usage` in the validator) are modelled as
  association lists that preserve first-insertion key order.
-/

/-- Model of a team preference record (`TeamPreference.to_dict` in
`data/models.py`): the fields read by the allocator. `submission_time`
is the parsed timestamp, see the module comment. -/
structure TeamPref where
  team_name : String
  contact_person : String
  team_size : Nat
  preferred_days : String
  submission_time : Option ℚ
deriving DecidableEq

/-- Model of a weekly project-room allocation record
(`WeeklyAllocation.to_dict` in `data/models.py`). -/
structure WeeklyAllocation where
  team_name : String
  room_name : String
  date : String
  day_of_week : String
  confirmed : Bool
  confirmed_at : Option String
  created_at : String
deriving DecidableEq

/-- `ValidationHelper.get_available_rooms` from `data/models.py`. -/
def rooms : List String :=
  ["Room A", "Room B", "Room C", "Room D", "Room E", "Room F", "Room G",
   "Room H", "Room I"]

/-- The `room_capacities` dict from `ProjectRoomAllocator.__init__`
(`logic/allocation.py` lines 17-21); `0` for keys the dict does not have
(the code never looks such keys up). -/
def room_capacities : String → Nat := fun r =>
  if r = "Room A" then 6 else if r = "Room B" then 6
  else if r = "Room C" then 4 else if r = "Room D" then 4
  else if r = "Room E" then 4 else if r = "Room F" then 4
  else if r = "Room G" then 4 else if r = "Room H" then 4
  else if r = "Room I" then 4 else 0

/-- `calculate_team_priority_score` from `utils/helpers.py` (lines
282-296), over the abstracted timestamp: larger teams score higher, the
time component is the negated hour-scaled timestamp weighted by `0.001`,
and a timestamp that fails to parse contributes `0`. -/
def calculate_team_priority_score (team_size : Nat) (submission_time : Option ℚ) : ℚ :=
  let size_score : ℚ := (team_size : ℚ) * 10
  let time_score : ℚ :=
    match submission_time with
    | some ts => -(ts / 3600)
    | none => 0
  size_score + time_score * (1 / 1000)

/-- One weekday slot of the `room_usage` state of
`ProjectRoomAllocator._allocate_teams_for_days`: the loop of lines
120-125 marks every room-day touched by an existing allocation as full. -/
def markFull (days : List String) (usage : String → String → Nat)
    (a : WeeklyAllocation) : String → String → Nat :=
  if a.day_of_week ∈ days ∧ a.room_name ∈ rooms then
    fun d r =>
      if d = a.day_of_week ∧ r = a.room_name then room_capacities a.room_name
      else usage d r
  else usage

/-- The initial `room_usage` of `_allocate_teams_for_days`: zero for
every room-day, then every existing allocation marks its room-day as
full (lines 117-125 of `logic/allocation.py`). -/
def accountExisting (days : List String) (existing : List WeeklyAllocation) :
    String → String → Nat :=
  existing.foldl (markFull days) (fun _ _ => 0)

/-- The room-search loop of `_allocate_teams_for_days` (lines 134-147):
the first catalog room whose capacity is at least the team size and which
has room for the team on every requested day. -/
def suitableRoom (usage : String → String → Nat) (days : List String)
    (size : Nat) : Option String :=
  rooms.find? fun room =>
    decide (size ≤ room_capacities room) &&
      days.all fun day => decide (usage day room + size ≤ room_capacities room)

/-- The usage update after a team of size `size` takes `room` on each of
`days` (line 163 of `logic/allocation.py`). -/
def addUsage (usage : String → String → Nat) (days : List String)
    (room : String) (size : Nat) : String → String → Nat :=
  days.foldl
    (fun u day => fun d r => if d = day ∧ r = room then u d r + size else u d r)
    usage

/-- The `WeeklyAllocation` records created for a placed team, one per
requested day (lines 151-160 of `logic/allocation.py`). -/
def mkAllocations (team : TeamPref) (room : String) (days : List String)
    (date_map : String → String) (now : String) : List WeeklyAllocation :=
  days.map fun day =>
    { team_name := team.team_name, room_name := room, date := date_map day,
      day_of_week := day, confirmed := false, confirmed_at := none,
      created_at := now }

/-- The mutable state of the team loop of `_allocate_teams_for_days`. -/
structure AllocState where
  usage : String → String → Nat
  allocations : List WeeklyAllocation
  unplaced : List TeamPref

/-- One iteration of the team loop of `_allocate_teams_for_days` (lines
127-165): place the team in the first suitable room on every requested
day, or add it to the unplaced list. -/
def allocStep (days : List String) (date_map : String → String) (now : String)
    (st : AllocState) (team : TeamPref) : AllocState :=
  match suitableRoom st.usage days team.team_size with
  | some room =>
      { usage := addUsage st.usage days room team.team_size,
        allocations := st.allocations ++ mkAllocations team room days date_map now,
        unplaced := st.unplaced }
  | none => { st with unplaced := st.unplaced ++ [team] }

/-- `ProjectRoomAllocator._allocate_teams_for_days` (lines 106-167). -/
def allocate_teams_for_days (teams : List TeamPref) (days : List String)
    (date_map : String → String) (now : String)
    (existing : List WeeklyAllocation) :
    List WeeklyAllocation × List TeamPref :=
  let final := teams.foldl (allocStep days date_map now)
    { usage := accountExisting days existing, allocations := [], unplaced := [] }
  (final.allocations, final.unplaced)

/-- One iteration of the overflow loop of
`ProjectRoomAllocator.allocate_rooms` (lines 68-79): retry an unplaced
team on the opposite day pair against the allocations built so far. -/
def overflowStep (date_map : String → String) (now : String)
    (st : List WeeklyAllocation × List String) (team : TeamPref) :
    List WeeklyAllocation × List String :=
  let alternative_days :=
    if team.preferred_days = "Monday & Wednesday" then ["Tuesday", "Thursday"]
    else ["Monday", "Wednesday"]
  let alt := allocate_teams_for_days [team] alternative_days date_map now st.1
  if alt.1.isEmpty then (st.1, st.2 ++ [team.team_name])
  else (st.1 ++ alt.1, st.2)

/-- `ProjectRoomAllocator.allocate_rooms` (lines 23-81).  `orderMW` and
`orderTT` abstract the sort-then-shuffle of lines 39-44 applied to the
two preference groups; theorems assume they permute their argument. -/
def allocate_rooms (orderMW orderTT : List TeamPref → List TeamPref)
    (preferences : List TeamPref) (date_map : String → String) (now : String) :
    List WeeklyAllocation × List String :=
  if preferences.isEmpty then ([], [])
  else
    let mon_wed_teams :=
      orderMW (preferences.filter fun p => p.preferred_days = "Monday & Wednesday")
    let tue_thu_teams :=
      orderTT (preferences.filter fun p => p.preferred_days = "Tuesday & Thursday")
    let mw := allocate_teams_for_days mon_wed_teams ["Monday", "Wednesday"]
      date_map now []
    let tt := allocate_teams_for_days tue_thu_teams ["Tuesday", "Thursday"]
      date_map now []
    (mw.2 ++ tt.2).foldl (overflowStep date_map now) (mw.1 ++ tt.1, [])

/-- The team size recorded in the input preferences for a given team
name: the size of the first preference with that name, `0` when there is
none (the cross-reference described by the capacity-invariant claim). -/
def team_size_of (preferences : List TeamPref) (name : String) : Nat :=
  ((preferences.find? fun p => p.team_name = name).map (fun p => p.team_size)).getD 0

/-- The load the allocation list puts on one room on one day: the sum of
the input-preference sizes of the allocated teams, one summand per
allocation record for that room and day. -/
def roomDayLoad (preferences : List TeamPref) (allocs : List WeeklyAllocation)
    (room day : String) : Nat :=
  ((allocs.filter fun a => a.room_name = room ∧ a.day_of_week = day).map
    (fun a => team_size_of preferences a.team_name)).sum

/-- As `roomDayLoad`, but each distinct team is counted once, exactly as
the capacity-invariant claim words it. -/
def roomDayLoadDistinct (preferences : List TeamPref)
    (allocs : List WeeklyAllocation) (room day : String) : Nat :=
  (((allocs.filter fun a => a.room_name = room ∧ a.day_of_week = day).map
    (fun a => a.team_name)).dedup.map (team_size_of preferences)).sum

/-- The allocation records of the list that carry a given team name. -/
def records_for (name : String) (allocs : List WeeklyAllocation) :
    List WeeklyAllocation :=
  allocs.filter fun a => a.team_name = name

/-- Model of an Oasis preference record (`OasisPreference.to_dict` in
`data/models.py`): the person name, five optional preferred-day fields
and the submission time. -/
structure OasisPreference where
  person_name : String
  preferred_day_1 : Option String
  preferred_day_2 : Option String
  preferred_day_3 : Option String
  preferred_day_4 : Option String
  preferred_day_5 : Option String
  submission_time : Option String
deriving DecidableEq

/-- Model of an Oasis allocation record (`OasisAllocation.to_dict` in
`data/models.py`). -/
structure OasisAllocation where
  person_name : String
  date : String
  day_of_week : String
  confirmed : Bool
  confirmed_at : Option String
  created_at : String
deriving DecidableEq

/-- `self.weekdays` of `OasisAllocator.__init__` (line 175). -/
def weekdays : List String :=
  ["Monday", "Tuesday", "Wednesday", "Thursday", "Friday"]

/-- `self.daily_capacity` of `OasisAllocator.__init__` (line 174). -/
def oasisDailyCapacity : Nat := 11

/-- `parse_preferred_days_from_oasis_pref` from `utils/helpers.py`
(lines 205-215): the non-empty day fields in field order (Python
truthiness skips both missing fields and empty strings). -/
def parse_preferred_days_from_oasis_pref (pref : OasisPreference) : List String :=
  [pref.preferred_day_1, pref.preferred_day_2, pref.preferred_day_3,
   pref.preferred_day_4, pref.preferred_day_5].foldl
    (fun acc day? =>
      match day? with
      | some day => if day ≠ "" then acc ++ [day] else acc
      | none => acc) []

/-- The parsed preference record built by `allocate_oasis` lines
191-200. -/
structure ParsedOasisPref where
  person_name : String
  preferred_days : List String
  submission_time : Option String
deriving DecidableEq

/-- The parsing loop of `allocate_oasis` (lines 191-200). -/
def parseOasisPrefs (prefs : List OasisPreference) : List ParsedOasisPref :=
  prefs.map fun p =>
    { person_name := p.person_name,
      preferred_days := parse_preferred_days_from_oasis_pref p,
      submission_time := p.submission_time }

/-- The Oasis allocation record built at lines 224-230 (and the other
construction sites, which build the same record). -/
def mkOasisAllocation (person_name day : String) (date_map : String → String)
    (now : String) : OasisAllocation :=
  { person_name := person_name, date := date_map day, day_of_week := day,
    confirmed := false, confirmed_at := none, created_at := now }

/-- The day loop of the guarantee and retry passes (lines 221-235):
allocate the person to the first listed day that still has capacity,
returning the updated `daily_allocations`, `person_allocations` and
whether an allocation was made. -/
def allocateFirstFit (person_name : String) (days : List String)
    (date_map : String → String) (now : String)
    (daily : String → List OasisAllocation)
    (personDays : String → List String) :
    ((String → List OasisAllocation) × (String → List String)) × Bool :=
  match days with
  | [] => ((daily, personDays), false)
  | day :: rest =>
    if (daily day).length < oasisDailyCapacity then
      ((fun d => if d = day then daily d ++ [mkOasisAllocation person_name day date_map now]
         else daily d,
        fun p => if p = person_name then personDays p ++ [day] else personDays p),
       true)
    else allocateFirstFit person_name rest date_map now daily personDays

/-- One person of a guarantee or retry sweep: attempt `allocateFirstFit`
on the (reordered) preferred days, collecting the person on failure. -/
def oasisStep (dayOrder : ParsedOasisPref → List String)
    (date_map : String → String) (now : String)
    (st : (String → List OasisAllocation) × (String → List String) ×
      List ParsedOasisPref)
    (person : ParsedOasisPref) :
    (String → List OasisAllocation) × (String → List String) ×
      List ParsedOasisPref :=
  let fit := allocateFirstFit person.person_name (dayOrder person)
    date_map now st.1 st.2.1
  if fit.2 then (fit.1.1, fit.1.2, st.2.2)
  else (fit.1.1, fit.1.2, st.2.2 ++ [person])

/-- One sweep of the guarantee pass (lines 214-238) or of a retry pass
(lines 248-271): each listed person attempts `allocateFirstFit` on their
(reordered) preferred days; people left unallocated are collected in
order. -/
def oasisPass (dayOrder : ParsedOasisPref → List String)
    (date_map : String → String) (now : String)
    (people : List ParsedOasisPref)
    (daily : String → List OasisAllocation)
    (personDays : String → List String) :
    (String → List OasisAllocation) × (String → List String) × List ParsedOasisPref :=
  people.foldl (oasisStep dayOrder date_map now) (daily, personDays, [])

/-- The retry loop (lines 241-271): up to `n` further sweeps over the
people still unallocated, stopping early when none remain.  `δ` gives
the reordered preferred-day list used for each person on each sweep. -/
def retryLoop (δ : Nat → ParsedOasisPref → List String)
    (date_map : String → String) (now : String) :
    Nat →
    (String → List OasisAllocation) × (String → List String) × List ParsedOasisPref →
    (String → List OasisAllocation) × (String → List String) × List ParsedOasisPref
  | 0, st => st
  | n + 1, st =>
    if st.2.2.isEmpty then st
    else retryLoop δ date_map now n (oasisPass (δ n) date_map now st.2.2 st.1 st.2.1)

/-- The day loop of the bonus pass (lines 291-304): grant the first
preferred day the person does not already hold and that still has
capacity; days are tried in stated (unshuffled) preference order. -/
def bonusTryDays (person_name : String) (days : List String)
    (date_map : String → String) (now : String)
    (daily : String → List OasisAllocation)
    (personDays : String → List String) :
    ((String → List OasisAllocation) × (String → List String)) × Bool :=
  match days with
  | [] => ((daily, personDays), false)
  | day :: rest =>
    if day ∉ personDays person_name ∧ (daily day).length < oasisDailyCapacity then
      ((fun d => if d = day then daily d ++ [mkOasisAllocation person_name day date_map now]
         else daily d,
        fun p => if p = person_name then personDays p ++ [day] else personDays p),
       true)
    else bonusTryDays person_name rest date_map now daily personDays

/-- One person of a bonus sweep: skip the person when they already hold
as many days as they asked for, otherwise attempt one additional day. -/
def bonusStep (date_map : String → String) (now : String)
    (st : (String → List OasisAllocation) × (String → List String) × Bool)
    (person : ParsedOasisPref) :
    (String → List OasisAllocation) × (String → List String) × Bool :=
  if person.preferred_days.length ≤ (st.2.1 person.person_name).length then st
  else
    let fit := bonusTryDays person.person_name person.preferred_days
      date_map now st.1 st.2.1
    (fit.1.1, fit.1.2, st.2.2 || fit.2)

/-- One bonus sweep (lines 274-304): every person who holds fewer days
than they asked for attempts one additional preferred day; the Boolean
records whether the sweep granted anything. -/
def bonusPass (people : List ParsedOasisPref)
    (date_map : String → String) (now : String)
    (daily : String → List OasisAllocation)
    (personDays : String → List String) :
    (String → List OasisAllocation) × (String → List String) × Bool :=
  people.foldl (bonusStep date_map now) (daily, personDays, false)

/-- The bonus loop (lines 274-307): up to `n` bonus sweeps, stopping
after the first sweep that grants nothing.  `σ` gives the reordered
person list used for each sweep. -/
def bonusLoop (σ : Nat → List ParsedOasisPref → List ParsedOasisPref)
    (parsed : List ParsedOasisPref)
    (date_map : String → String) (now : String) :
    Nat →
    (String → List OasisAllocation) × (String → List String) →
    (String → List OasisAllocation) × (String → List String)
  | 0, st => st
  | n + 1, st =>
    let swept := bonusPass (σ n parsed) date_map now st.1 st.2
    if swept.2.2 then bonusLoop σ parsed date_map now n (swept.1, swept.2.1)
    else (swept.1, swept.2.1)

/-- `OasisAllocator.allocate_oasis` (lines 177-314).  `σ₀` abstracts the
shuffle of the people before the guarantee pass, `δ` the per-pass
per-person day shuffles, `σ` the per-sweep person shuffles of the bonus
loop; theorems assume each permutes its argument. -/
def allocate_oasis (σ₀ : List ParsedOasisPref → List ParsedOasisPref)
    (δ : Nat → ParsedOasisPref → List String)
    (σ : Nat → List ParsedOasisPref → List ParsedOasisPref)
    (preferences : List OasisPreference)
    (date_map : String → String) (now : String) : List OasisAllocation :=
  if preferences.isEmpty then []
  else
    let parsed := parseOasisPrefs preferences
    let first := oasisPass (δ 4) date_map now (σ₀ parsed)
      (fun _ => []) (fun _ => [])
    let retried := retryLoop δ date_map now 4 first
    let bonused := bonusLoop σ parsed date_map now 4 (retried.1, retried.2.1)
    weekdays.flatMap fun day => bonused.1 day

/-- `OasisAllocator.get_daily_availability` (lines 316-332) read at one
weekday: remaining capacity, floored at zero (truncated subtraction). -/
def get_daily_availability (existing : List OasisAllocation) (day : String) : Nat :=
  oasisDailyCapacity -
    (existing.filter fun a => a.day_of_week = day).length

/-- `OasisAllocator.can_add_person_to_day` (lines 334-341). -/
def can_add_person_to_day (day : String) (existing : List OasisAllocation) : Bool :=
  if day ∉ weekdays then false
  else decide (0 < get_daily_availability existing day)

/-- `OasisAllocator.add_adhoc_allocation` (lines 343-371).  The check
`day not in date_map` of line 359 is the check that `day` is one of the
five weekday keys of `get_current_week_dates`. -/
def add_adhoc_allocation (person_name day : String)
    (existing : List OasisAllocation)
    (date_map : String → String) (now : String) : Option OasisAllocation :=
  if ¬ can_add_person_to_day day existing then none
  else if existing.any fun a =>
      decide (a.person_name = person_name) && decide (a.day_of_week = day) then none
  else if day ∉ weekdays then none
  else some (mkOasisAllocation person_name day date_map now)

/-- The grouping key of the validator: the Python f-string
`f"{room}_{day}"` (line 405 of `logic/allocation.py`). -/
def roomDayKey (room day : String) : String := room ++ "_" ++ day

/-- One step of dict grouping with insertion order: append the value to
the existing entry for the key, or add a new entry at the end. -/
def upsert (groups : List (String × List String)) (key value : String) :
    List (String × List String) :=
  match groups with
  | [] => [(key, [value])]
  | (k, vs) :: rest =>
    if k = key then (k, vs ++ [value]) :: rest
    else (k, vs) :: upsert rest key value

/-- The `room_usage` grouping of `validate_allocation_results` (lines
401-409): weekly allocations grouped by room-day key, keys in first
occurrence order, team names in record order. -/
def groupWeekly (allocs : List WeeklyAllocation) : List (String × List String) :=
  allocs.foldl (fun g a => upsert g (roomDayKey a.room_name a.day_of_week) a.team_name) []

/-- The `oasis_usage` grouping of `validate_allocation_results` (lines
418-424): oasis allocations grouped by day. -/
def groupOasis (allocs : List OasisAllocation) : List (String × List String) :=
  allocs.foldl (fun g a => upsert g a.day_of_week a.person_name) []

/-- The value list stored under a key in a grouping assoc list: the
values of the first entry with that key, or `[]` when absent. -/
def valuesAt (groups : List (String × List String)) (k : String) : List String :=
  match groups.find? fun kv => kv.1 = k with
  | some kv => kv.2
  | none => []

/-- The room-conflict error message of line 414. -/
def roomConflictMsg (key : String) (teams : List String) : String :=
  "Room conflict: " ++ key ++ " assigned to multiple teams: " ++
    String.intercalate ", " teams

/-- The Oasis capacity error message of line 429. -/
def oasisCapacityMsg (day : String) (n : Nat) : String :=
  "Oasis capacity exceeded on " ++ day ++ ": " ++ toString n ++ " people (max 11)"

/-- The duplicate-allocation error message of line 435.  Python renders
`set(duplicates)` whose iteration order is unspecified; the model keeps
first-occurrence order. -/
def oasisDuplicateMsg (day : String) (people : List String) : String :=
  "Duplicate Oasis allocations on " ++ day ++ ": " ++
    String.intercalate ", " ((people.filter fun p => 1 < people.count p).dedup)

/-- The `summary` dict of `validate_allocation_results` (lines 439-446). -/
structure ValidationSummary where
  total_project_allocations : Nat
  total_oasis_allocations : Nat
  unique_teams : Nat
  unique_people : Nat
  rooms_used : Nat
  oasis_daily_usage : List (String × Nat)
deriving DecidableEq

/-- The `validation_results` dict (lines 393-398). -/
structure ValidationResult where
  valid : Bool
  errors : List String
  warnings : List String
  summary : ValidationSummary
deriving DecidableEq

/-- `validate_allocation_results` from `logic/allocation.py` (lines
390-448).  `valid` starts true and is set to false whenever an error is
appended, so it equals the emptiness of the error list. -/
def validate_allocation_results (weekly : List WeeklyAllocation)
    (oasis : List OasisAllocation) : ValidationResult :=
  let room_usage := groupWeekly weekly
  let room_errors := (room_usage.filter fun kv => 1 < kv.2.length).map
    fun kv => roomConflictMsg kv.1 kv.2
  let oasis_usage := groupOasis oasis
  let oasis_errors := oasis_usage.flatMap fun kv =>
    (if 11 < kv.2.length then [oasisCapacityMsg kv.1 kv.2.length] else []) ++
    (if kv.2.length ≠ kv.2.dedup.length then [oasisDuplicateMsg kv.1 kv.2] else [])
  let errors := room_errors ++ oasis_errors
  { valid := errors.isEmpty,
    errors := errors,
    warnings := [],
    summary :=
      { total_project_allocations := weekly.length,
        total_oasis_allocations := oasis.length,
        unique_teams := (weekly.map fun a => a.team_name).dedup.length,
        unique_people := (oasis.map fun a => a.person_name).dedup.length,
        rooms_used := (weekly.map fun a => a.room_name).dedup.length,
        oasis_daily_usage := oasis_usage.map fun kv => (kv.1, kv.2.length) } }

/-- The load a list of records puts on a room-day, measured by an
arbitrary size assignment for team names; `roomDayLoad` is the instance
where the sizes come from the input preferences. -/
def recLoad (sz : String → Nat) (A : List WeeklyAllocation) (room day : String) : Nat :=
  ((A.filter fun a => a.room_name = room ∧ a.day_of_week = day).map
    (fun a => sz a.team_name)).sum

/-- The number of rooms already in use on Monday, for the size-4
scenario analysis. -/
def occ (usage : String → String → Nat) : Nat :=
  (rooms.filter fun r => usage "Monday" r ≠ 0).length

/-- The state invariant of the Monday-Wednesday greedy pass when every
team has size 4: Monday and Wednesday usage agree and every room is
either empty or holds exactly one size-4 team. -/
def Inv4 (usage : String → String → Nat) : Prop :=
  (∀ r, usage "Wednesday" r = usage "Monday" r) ∧
  (∀ r, usage "Monday" r = 0 ∨ usage "Monday" r = 4)

/-- Concrete Oasis preferences for witnesses. -/
def annPref : OasisPreference :=
  { person_name := "Ann", preferred_day_1 := some "Monday",
    preferred_day_2 := none, preferred_day_3 := none,
    preferred_day_4 := none, preferred_day_5 := none,
    submission_time := none }

/-- A second concrete Oasis preference for witnesses. -/
def bobPref : OasisPreference :=
  { person_name := "Bob", preferred_day_1 := some "Tuesday",
    preferred_day_2 := none, preferred_day_3 := none,
    preferred_day_4 := none, preferred_day_5 := none,
    submission_time := none }

/-- The running invariant of the `daily_allocations` dict: every day
list respects the capacity of 11 and contains only records tagged with
that day. -/
def OasisInv (daily : String → List OasisAllocation) : Prop :=
  ∀ d, (daily d).length ≤ 11 ∧ ∀ a ∈ daily d, a.day_of_week = d

/-- The scenario-B input: ten distinct teams of size 4 all requesting
Monday and Wednesday. -/
def prefs10 : List TeamPref :=
  (List.range 10).map fun i =>
    { team_name := "Team " ++ toString i, contact_person := "C", team_size := 4,
      preferred_days := "Monday & Wednesday", submission_time := none }

/-- The scenario-C input: fifteen people with distinct names, each
listing Monday as the only preferred day. -/
def c9prefs : List OasisPreference :=
  (List.range 15).map fun i =>
    { person_name := "P" ++ toString i, preferred_day_1 := some "Monday",
      preferred_day_2 := none, preferred_day_3 := none,
      preferred_day_4 := none, preferred_day_5 := none,
      submission_time := none }

/-- The scenario input for the validator analysis: the same team
recorded twice for Room A on Monday, as a manual edit could produce. -/
def c8recs : List WeeklyAllocation :=
  [{ team_name := "Team X", room_name := "Room A", date := "2025-01-06",
     day_of_week := "Monday", confirmed := false, confirmed_at := none,
     created_at := "t0" },
   { team_name := "Team X", room_name := "Room A", date := "2025-01-06",
     day_of_week := "Monday", confirmed := false, confirmed_at := none,
     created_at := "t0" }]

/-- C3: the claim as stated is false: a sufficiently large submission
timestamp gap outweighs a strictly larger team size.  With team sizes 4
versus 3, a team submitting at timestamp 72000000 seconds (April 1972, a
valid ISO instant) scores 40 - 72000000/3600000 = 20, strictly below the
30 - 0 = 30 of the smaller team submitting at the epoch. -/
theorem C3_counterexample :
    3 < 4 ∧
      calculate_team_priority_score 4 (some 72000000) <
        calculate_team_priority_score 3 (some 0) := by
  constructor
  · decide
  · norm_num [calculate_team_priority_score]

/-- C3 (amended): the strictly larger team scores strictly higher
provided the timestamp gap is below 36000000 seconds (ten hour-scaled
units at weight 0.001) per unit of size difference; in particular team
size dominates whenever submissions lie within any 416-day window. -/
theorem C3_size_dominates_within_window (s₁ s₂ : Nat) (t₁ t₂ : ℚ)
    (hs : s₂ < s₁)
    (ht : t₁ - t₂ < ((s₁ : ℚ) - (s₂ : ℚ)) * 36000000) :
    calculate_team_priority_score s₂ (some t₂) <
      calculate_team_priority_score s₁ (some t₁) := by
  have hcast : (s₂ : ℚ) + 1 ≤ (s₁ : ℚ) := by exact_mod_cast hs
  simp only [calculate_team_priority_score]
  linarith

/-- C3 witness: sizes 4 and 3 with submission times 100 and 0 seconds. -/
theorem C3_size_dominates_witness :
    calculate_team_priority_score 3 (some 0) <
      calculate_team_priority_score 4 (some 100) :=
  C3_size_dominates_within_window 4 3 100 0 (by decide) (by norm_num)

/-- C7: for a valid weekday, `add_adhoc_allocation` returns `none`
exactly when the day already holds 11 or more allocations or the person
already holds that day, and any returned record carries exactly the
requested person and day. -/
theorem C7_add_adhoc_spec (person day : String) (hday : day ∈ weekdays)
    (existing : List OasisAllocation)
    (date_map : String → String) (now : String) :
    (add_adhoc_allocation person day existing date_map now = none ↔
      11 ≤ (existing.filter fun a => a.day_of_week = day).length ∨
        ∃ a ∈ existing, a.person_name = person ∧ a.day_of_week = day) ∧
    ∀ a, add_adhoc_allocation person day existing date_map now = some a →
      a.person_name = person ∧ a.day_of_week = day := by
  have hmem : ¬ day ∉ weekdays := not_not_intro hday
  simp only [add_adhoc_allocation, can_add_person_to_day,
    get_daily_availability, oasisDailyCapacity, hmem, if_false,
    decide_eq_true_eq]
  by_cases hcap : 11 ≤ (existing.filter fun a => a.day_of_week = day).length
  · have h0 : ¬ 0 < 11 - (existing.filter fun a => a.day_of_week = day).length := by
      omega
    simp [h0, hcap]
  · have h0 : 0 < 11 - (existing.filter fun a => a.day_of_week = day).length := by
      omega
    simp only [h0, not_true_eq_false, if_false, hcap, false_or]
    by_cases hdup : ∃ a ∈ existing, a.person_name = person ∧ a.day_of_week = day
    · have hany : (existing.any fun a =>
          decide (a.person_name = person) && decide (a.day_of_week = day)) = true := by
        simp only [List.any_eq_true, Bool.and_eq_true, decide_eq_true_eq]
        exact hdup
      simp [hany, hdup]
    · have hany : (existing.any fun a =>
          decide (a.person_name = person) && decide (a.day_of_week = day)) = false := by
        simp only [List.any_eq_false, Bool.and_eq_true, decide_eq_true_eq]
        intro a ha
        exact fun hc => hdup ⟨a, ha, hc⟩
      simp only [hany, Bool.false_eq_true, if_false, hmem, hdup, iff_false]
      refine ⟨by simp [mkOasisAllocation], ?_⟩
      intro a ha
      obtain rfl : mkOasisAllocation person day date_map now = a := by
        simpa using ha
      exact ⟨rfl, rfl⟩

/-- C7 witness, scenario D: a person already allocated Tuesday asking
for Tuesday again is refused, and the returned record of a fresh request
carries the requested person and day. -/
theorem C7_add_adhoc_witness :
    (add_adhoc_allocation "Alice" "Tuesday"
        [mkOasisAllocation "Alice" "Tuesday" (fun d => d) "t0"]
        (fun d => d) "t1" = none ↔
      11 ≤ ([mkOasisAllocation "Alice" "Tuesday" (fun d => d) "t0"].filter
          fun a => a.day_of_week = "Tuesday").length ∨
        ∃ a ∈ [mkOasisAllocation "Alice" "Tuesday" (fun d => d) "t0"],
          a.person_name = "Alice" ∧ a.day_of_week = "Tuesday") ∧
    ∀ a, add_adhoc_allocation "Alice" "Tuesday"
        [mkOasisAllocation "Alice" "Tuesday" (fun d => d) "t0"]
        (fun d => d) "t1" = some a →
      a.person_name = "Alice" ∧ a.day_of_week = "Tuesday" :=
  C7_add_adhoc_spec "Alice" "Tuesday" (by decide)
    [mkOasisAllocation "Alice" "Tuesday" (fun d => d) "t0"] (fun d => d) "t1"

theorem roomDayLoad_eq_recLoad (preferences : List TeamPref)
    (A : List WeeklyAllocation) (room day : String) :
    roomDayLoad preferences A room day = recLoad (team_size_of preferences) A room day :=
  rfl

theorem recLoad_append (sz : String → Nat) (A B : List WeeklyAllocation)
    (room day : String) :
    recLoad sz (A ++ B) room day = recLoad sz A room day + recLoad sz B room day := by
  simp [recLoad, List.filter_append]

theorem recLoad_eq_zero (sz : String → Nat) {A : List WeeklyAllocation}
    {room day : String}
    (h : ∀ a ∈ A, ¬(a.room_name = room ∧ a.day_of_week = day)) :
    recLoad sz A room day = 0 := by
  have hf : A.filter (fun a =>
      decide (a.room_name = room) && decide (a.day_of_week = day)) = [] := by
    rw [List.filter_eq_nil_iff]
    intro a ha
    simp only [Bool.and_eq_true, decide_eq_true_eq]
    exact h a ha
  simp [recLoad, hf]

theorem foldl_markFull_apply (days : List String) :
    ∀ (ex : List WeeklyAllocation) (u : String → String → Nat) (d r : String),
      (ex.foldl (markFull days) u) d r =
        if ∃ a ∈ ex, a.day_of_week = d ∧ a.room_name = r ∧ d ∈ days ∧ r ∈ rooms
        then room_capacities r else u d r := by
  intro ex
  induction ex with
  | nil => intro u d r; simp
  | cons a ex ih =>
    intro u d r
    rw [List.foldl_cons, ih]
    by_cases hex : ∃ b ∈ ex, b.day_of_week = d ∧ b.room_name = r ∧ d ∈ days ∧ r ∈ rooms
    · rw [if_pos hex, if_pos]
      obtain ⟨b, hb, hprops⟩ := hex
      exact ⟨b, List.mem_cons_of_mem a hb, hprops⟩
    · rw [if_neg hex]
      by_cases hmatch : a.day_of_week = d ∧ a.room_name = r ∧ d ∈ days ∧ r ∈ rooms
      · obtain ⟨hd, hr, hdd, hrr⟩ := hmatch
        rw [if_pos ⟨a, List.mem_cons_self a ex, hd, hr, hdd, hrr⟩]
        rw [markFull, if_pos ⟨hd ▸ hdd, hr ▸ hrr⟩]
        rw [if_pos ⟨hd.symm, hr.symm⟩, hr]
      · rw [if_neg]
        · rw [markFull]
          by_cases hguard : a.day_of_week ∈ days ∧ a.room_name ∈ rooms
          · rw [if_pos hguard]
            by_cases hdr : d = a.day_of_week ∧ r = a.room_name
            · exact absurd ⟨hdr.1.symm, hdr.2.symm, hdr.1 ▸ hguard.1, hdr.2 ▸ hguard.2⟩ hmatch
            · rw [if_neg hdr]
          · rw [if_neg hguard]
        · rintro ⟨b, hb, hprops⟩
          rcases List.mem_cons.mp hb with rfl | hb'
          · exact hmatch hprops
          · exact hex ⟨b, hb', hprops⟩

theorem accountExisting_apply (days : List String) (ex : List WeeklyAllocation)
    (d r : String) :
    accountExisting days ex d r =
      if ∃ a ∈ ex, a.day_of_week = d ∧ a.room_name = r ∧ d ∈ days ∧ r ∈ rooms
      then room_capacities r else 0 :=
  foldl_markFull_apply days ex (fun _ _ => 0) d r

theorem accountExisting_le_cap (days : List String) (ex : List WeeklyAllocation)
    (d r : String) :
    accountExisting days ex d r ≤ room_capacities r := by
  rw [accountExisting_apply]
  split <;> omega

theorem addUsage_apply {days : List String} (hnd : days.Nodup)
    (u : String → String → Nat) (room : String) (size : Nat) (d r : String) :
    addUsage u days room size d r =
      if d ∈ days ∧ r = room then u d r + size else u d r := by
  induction days generalizing u with
  | nil => simp [addUsage]
  | cons day rest ih =>
    have hnd' : rest.Nodup := hnd.of_cons
    have hday : day ∉ rest := (List.nodup_cons.mp hnd).1
    have hstep : addUsage u (day :: rest) room size =
        addUsage (fun d r => if d = day ∧ r = room then u d r + size else u d r)
          rest room size := rfl
    rw [hstep, ih hnd']
    by_cases hr : r = room
    · by_cases hd1 : d = day
      · rw [if_neg (fun hc => hday (hd1 ▸ hc.1)),
          if_pos ⟨hd1, hr⟩, if_pos ⟨hd1 ▸ List.mem_cons_self day rest, hr⟩]
      · by_cases hd2 : d ∈ rest
        · rw [if_pos ⟨hd2, hr⟩, if_neg (fun hc => hd1 hc.1),
            if_pos ⟨List.mem_cons_of_mem day hd2, hr⟩]
        · rw [if_neg (fun hc => hd2 hc.1), if_neg (fun hc => hd1 hc.1), if_neg]
          rintro ⟨hmem', -⟩
          rcases List.mem_cons.mp hmem' with h | h
          · exact hd1 h
          · exact hd2 h
    · rw [if_neg (fun hc => hr hc.2), if_neg (fun hc => hr hc.2),
        if_neg (fun hc => hr hc.2)]

theorem suitableRoom_eq_some {u : String → String → Nat} {days : List String}
    {size : Nat} {room : String} (h : suitableRoom u days size = some room) :
    room ∈ rooms ∧ size ≤ room_capacities room ∧
      ∀ d ∈ days, u d room + size ≤ room_capacities room := by
  refine ⟨List.mem_of_find?_eq_some h, ?_⟩
  have hp := List.find?_some h
  simp only [Bool.and_eq_true, decide_eq_true_eq, List.all_eq_true] at hp
  exact ⟨hp.1, fun d hd => hp.2 d hd⟩

theorem suitableRoom_ne_none {u : String → String → Nat} {days : List String}
    {size : Nat} {room : String} (hr : room ∈ rooms)
    (h1 : size ≤ room_capacities room)
    (h2 : ∀ d ∈ days, u d room + size ≤ room_capacities room) :
    suitableRoom u days size ≠ none := by
  intro hnone
  have hfa := List.find?_eq_none.mp hnone room hr
  apply hfa
  simp only [Bool.and_eq_true, decide_eq_true_eq, List.all_eq_true]
  exact ⟨h1, fun d hd => h2 d hd⟩

theorem mem_mkAllocations {t : TeamPref} {room : String} {days : List String}
    {date_map : String → String} {now : String} {a : WeeklyAllocation}
    (h : a ∈ mkAllocations t room days date_map now) :
    a.team_name = t.team_name ∧ a.room_name = room ∧ a.day_of_week ∈ days := by
  simp only [mkAllocations, List.mem_map] at h
  obtain ⟨day, hday, rfl⟩ := h
  exact ⟨rfl, rfl, hday⟩

theorem recLoad_singleton (sz : String → Nat) (a : WeeklyAllocation)
    (r d : String) :
    recLoad sz [a] r d =
      if a.room_name = r ∧ a.day_of_week = d then sz a.team_name else 0 := by
  by_cases h : a.room_name = r ∧ a.day_of_week = d
  · rw [if_pos h]
    simp [recLoad, h.1, h.2]
  · rw [if_neg h]
    exact recLoad_eq_zero sz (by simpa using h)

theorem recLoad_mkAllocations (sz : String → Nat) {days : List String}
    (hnd : days.Nodup) (t : TeamPref) (room : String)
    (date_map : String → String) (now : String) (r d : String) :
    recLoad sz (mkAllocations t room days date_map now) r d =
      if r = room ∧ d ∈ days then sz t.team_name else 0 := by
  induction days with
  | nil => simp [recLoad, mkAllocations]
  | cons day rest ih =>
    have hnd' : rest.Nodup := hnd.of_cons
    have hday : day ∉ rest := (List.nodup_cons.mp hnd).1
    have hsplit : mkAllocations t room (day :: rest) date_map now =
        [({ team_name := t.team_name, room_name := room, date := date_map day,
            day_of_week := day, confirmed := false, confirmed_at := none,
            created_at := now } : WeeklyAllocation)] ++
          mkAllocations t room rest date_map now := rfl
    rw [hsplit, recLoad_append, recLoad_singleton, ih hnd']
    by_cases hr : r = room
    · by_cases hd1 : d = day
      · rw [if_pos ⟨hr.symm, hd1.symm⟩, if_neg (fun hc => hday (hd1 ▸ hc.2)),
          if_pos ⟨hr, hd1 ▸ List.mem_cons_self day rest⟩]
        simp
      · by_cases hd2 : d ∈ rest
        · rw [if_neg (fun hc => hd1 hc.2.symm), if_pos ⟨hr, hd2⟩,
            if_pos ⟨hr, List.mem_cons_of_mem day hd2⟩]
          omega
        · rw [if_neg (fun hc => hd1 hc.2.symm), if_neg (fun hc => hd2 hc.2),
            if_neg]
          rintro ⟨-, hdm⟩
          rcases List.mem_cons.mp hdm with h | h
          · exact hd1 h
          · exact hd2 h
    · rw [if_neg (fun hc => hr hc.1.symm), if_neg (fun hc => hr hc.1),
        if_neg (fun hc => hr hc.1)]

theorem foldl_allocStep_load {days : List String} (hnd : days.Nodup)
    (date_map : String → String) (now : String) (sz : String → Nat)
    (base : String → String → Nat) :
    ∀ (ts : List TeamPref) (st : AllocState),
      (∀ t ∈ ts, sz t.team_name = t.team_size) →
      (∀ r d, d ∈ days →
        recLoad sz st.allocations r d + base d r ≤ st.usage d r ∧
          st.usage d r ≤ room_capacities r) →
      ∀ r d, d ∈ days →
        recLoad sz ((ts.foldl (allocStep days date_map now) st).allocations) r d +
            base d r ≤ (ts.foldl (allocStep days date_map now) st).usage d r ∧
          (ts.foldl (allocStep days date_map now) st).usage d r ≤
            room_capacities r := by
  intro ts
  induction ts with
  | nil => intro st _ hst r d hd; exact hst r d hd
  | cons t rest ih =>
    intro st hsz hst r d hd
    rw [List.foldl_cons]
    refine ih _ (fun u hu => hsz u (List.mem_cons_of_mem t hu)) ?_ r d hd
    intro r' d' hd'
    rw [allocStep]
    rcases hfind : suitableRoom st.usage days t.team_size with _ | room
    · exact hst r' d' hd'
    · obtain ⟨hroom, hcap, havail⟩ := suitableRoom_eq_some hfind
      simp only []
      rw [recLoad_append, recLoad_mkAllocations sz hnd, addUsage_apply hnd,
        hsz t (List.mem_cons_self t rest)]
      by_cases hr : r' = room
      · rw [if_pos ⟨hr, hd'⟩, if_pos ⟨hd', hr⟩]
        have h1 := (hst r' d' hd').1
        have h2 := havail d' hd'
        subst hr
        omega
      · rw [if_neg (fun hc => hr hc.1), if_neg (fun hc => hr hc.2)]
        have := hst r' d' hd'
        omega

theorem foldl_allocStep_mem (days : List String) (date_map : String → String)
    (now : String) :
    ∀ (ts : List TeamPref) (st : AllocState),
      ∀ a ∈ (ts.foldl (allocStep days date_map now) st).allocations,
        a ∈ st.allocations ∨
          (a.room_name ∈ rooms ∧ a.day_of_week ∈ days ∧
            ∃ t ∈ ts, a.team_name = t.team_name) := by
  intro ts
  induction ts with
  | nil => intro st a ha; exact Or.inl ha
  | cons t rest ih =>
    intro st a ha
    rw [List.foldl_cons] at ha
    rcases ih _ a ha with hin | ⟨h1, h2, u, hu, h3⟩
    · rw [allocStep] at hin
      rcases hfind : suitableRoom st.usage days t.team_size with _ | room
      · rw [hfind] at hin
        exact Or.inl hin
      · rw [hfind] at hin
        simp only [List.mem_append] at hin
        rcases hin with hin | hin
        · exact Or.inl hin
        · obtain ⟨hname, hroom, hday⟩ := mem_mkAllocations hin
          exact Or.inr ⟨hroom ▸ (suitableRoom_eq_some hfind).1, hday,
            t, List.mem_cons_self t rest, hname⟩
    · exact Or.inr ⟨h1, h2, u, List.mem_cons_of_mem t hu, h3⟩

theorem foldl_allocStep_unplaced (days : List String) (date_map : String → String)
    (now : String) :
    ∀ (ts : List TeamPref) (st : AllocState),
      ∃ us, (ts.foldl (allocStep days date_map now) st).unplaced =
          st.unplaced ++ us ∧ List.Sublist us ts := by
  intro ts
  induction ts with
  | nil => intro st; exact ⟨[], by simp, List.nil_sublist []⟩
  | cons t rest ih =>
    intro st
    rw [List.foldl_cons, allocStep]
    rcases hfind : suitableRoom st.usage days t.team_size with _ | room
    · obtain ⟨us, heq, hsub⟩ := ih { st with unplaced := st.unplaced ++ [t] }
      refine ⟨t :: us, ?_, List.Sublist.cons₂ t hsub⟩
      rw [heq]
      simp
    · obtain ⟨us, heq, hsub⟩ := ih _
      exact ⟨us, heq, List.Sublist.cons t hsub⟩

theorem allocate_teams_for_days_mem (ts : List TeamPref) (days : List String)
    (date_map : String → String) (now : String)
    (ex : List WeeklyAllocation) :
    ∀ a ∈ (allocate_teams_for_days ts days date_map now ex).1,
      a.room_name ∈ rooms ∧ a.day_of_week ∈ days ∧
        ∃ t ∈ ts, a.team_name = t.team_name := by
  intro a ha
  rcases foldl_allocStep_mem days date_map now ts _ a ha with hin | h
  · exact absurd hin (List.not_mem_nil a)
  · exact h

theorem allocate_teams_for_days_load {days : List String} (hnd : days.Nodup)
    (ts : List TeamPref) (date_map : String → String) (now : String)
    (ex : List WeeklyAllocation) (sz : String → Nat)
    (hsz : ∀ t ∈ ts, sz t.team_name = t.team_size) :
    ∀ r d, d ∈ days →
      recLoad sz (allocate_teams_for_days ts days date_map now ex).1 r d +
        accountExisting days ex d r ≤ room_capacities r := by
  intro r d hd
  have h := foldl_allocStep_load hnd date_map now sz (accountExisting days ex) ts
    { usage := accountExisting days ex, allocations := [], unplaced := [] }
    hsz
    (fun r' d' _ => by
      constructor
      · simp [recLoad]
      · exact accountExisting_le_cap days ex d' r')
    r d hd
  exact le_trans h.1 h.2

theorem allocate_teams_for_days_load_zero (ts : List TeamPref)
    (days : List String) (date_map : String → String) (now : String)
    (ex : List WeeklyAllocation) (sz : String → Nat) (r d : String)
    (h : d ∉ days ∨ r ∉ rooms) :
    recLoad sz (allocate_teams_for_days ts days date_map now ex).1 r d = 0 := by
  apply recLoad_eq_zero
  intro a ha hc
  obtain ⟨hroom, hday, -⟩ := allocate_teams_for_days_mem ts days date_map now ex a ha
  rcases h with h | h
  · exact h (hc.2 ▸ hday)
  · exact h (hc.1 ▸ hroom)

theorem allocate_teams_for_days_unplaced (ts : List TeamPref)
    (days : List String) (date_map : String → String) (now : String)
    (ex : List WeeklyAllocation) :
    List.Sublist (allocate_teams_for_days ts days date_map now ex).2 ts := by
  obtain ⟨us, heq, hsub⟩ := foldl_allocStep_unplaced days date_map now ts
    { usage := accountExisting days ex, allocations := [], unplaced := [] }
  have : (allocate_teams_for_days ts days date_map now ex).2 = us := by
    rw [allocate_teams_for_days]
    simpa using heq
  rw [this]
  exact hsub

theorem team_size_of_eq {prefs : List TeamPref}
    (hnd : (prefs.map fun p => p.team_name).Nodup) {t : TeamPref}
    (ht : t ∈ prefs) : team_size_of prefs t.team_name = t.team_size := by
  have hsome : (prefs.find? fun p => p.team_name = t.team_name).isSome :=
    List.find?_isSome.mpr ⟨t, ht, by simp⟩
  rcases hfind : prefs.find? fun p => p.team_name = t.team_name with _ | p
  · rw [hfind] at hsome; simp at hsome
  · have hp : p ∈ prefs := List.mem_of_find?_eq_some hfind
    have hname : p.team_name = t.team_name := by
      have := List.find?_some hfind
      simpa using this
    have : p = t := List.inj_on_of_nodup_map hnd hp ht hname
    rw [team_size_of, hfind, this]
    rfl

theorem accountExisting_nil (days : List String) (d r : String) :
    accountExisting days [] d r = 0 := rfl

theorem overflow_extend_load {days' : List String} (hnd : days'.Nodup)
    (t : TeamPref) (date_map : String → String) (now : String)
    (sz : String → Nat) (hszt : sz t.team_name = t.team_size)
    (A : List WeeklyAllocation)
    (hK : ∀ r d, recLoad sz A r d ≤ room_capacities r) :
    ∀ r d,
      recLoad sz (A ++ (allocate_teams_for_days [t] days' date_map now A).1) r d ≤
        room_capacities r := by
  intro r d
  rw [recLoad_append]
  by_cases hdr : d ∈ days' ∧ r ∈ rooms
  · have hload := allocate_teams_for_days_load hnd [t] date_map now A sz
      (fun u hu => by rcases List.mem_singleton.mp hu with rfl; exact hszt)
      r d hdr.1
    by_cases hex : ∃ a ∈ A, a.day_of_week = d ∧ a.room_name = r
    · have hacct : accountExisting days' A d r = room_capacities r := by
        rw [accountExisting_apply, if_pos]
        obtain ⟨a, ha, h1, h2⟩ := hex
        exact ⟨a, ha, h1, h2, hdr.1, hdr.2⟩
      rw [hacct] at hload
      have := hK r d
      omega
    · have hzeroA : recLoad sz A r d = 0 :=
        recLoad_eq_zero sz (fun a ha hc => hex ⟨a, ha, hc.2, hc.1⟩)
      have hacct : accountExisting days' A d r = 0 := by
        rw [accountExisting_apply, if_neg]
        rintro ⟨a, ha, h1, h2, -⟩
        exact hex ⟨a, ha, h1, h2⟩
      rw [hacct] at hload
      omega
  · have hzero : recLoad sz (allocate_teams_for_days [t] days' date_map now A).1 r d = 0 :=
      allocate_teams_for_days_load_zero [t] days' date_map now A sz r d
        (by tauto)
    have := hK r d
    omega

theorem foldl_overflowStep_load (date_map : String → String) (now : String)
    (sz : String → Nat) :
    ∀ (us : List TeamPref) (st : List WeeklyAllocation × List String),
      (∀ t ∈ us, sz t.team_name = t.team_size) →
      (∀ r d, recLoad sz st.1 r d ≤ room_capacities r) →
      ∀ r d,
        recLoad sz (us.foldl (overflowStep date_map now) st).1 r d ≤
          room_capacities r := by
  intro us
  induction us with
  | nil => intro st _ hK r d; exact hK r d
  | cons t rest ih =>
    intro st hsz hK r d
    rw [List.foldl_cons]
    refine ih _ (fun u hu => hsz u (List.mem_cons_of_mem t hu)) ?_ r d
    intro r' d'
    simp only [overflowStep]
    split <;> split
    · exact hK r' d'
    · exact overflow_extend_load (by decide) t date_map now sz
        (hsz t (List.mem_cons_self t rest)) st.1 hK r' d'
    · exact hK r' d'
    · exact overflow_extend_load (by decide) t date_map now sz
        (hsz t (List.mem_cons_self t rest)) st.1 hK r' d'

theorem roomDayLoadDistinct_le (preferences : List TeamPref)
    (A : List WeeklyAllocation) (room day : String) :
    roomDayLoadDistinct preferences A room day ≤
      roomDayLoad preferences A room day := by
  unfold roomDayLoadDistinct roomDayLoad
  refine le_trans
    (List.Sublist.sum_le_sum
      (List.Sublist.map (team_size_of preferences) (List.dedup_sublist _))
      (fun a _ => Nat.zero_le a)) ?_
  rw [List.map_map]
  exact le_refl _

theorem allocate_rooms_core_load (sz : String → Nat)
    (date_map : String → String) (now : String) (mwts ttts : List TeamPref)
    (hszmw : ∀ t ∈ mwts, sz t.team_name = t.team_size)
    (hsztt : ∀ t ∈ ttts, sz t.team_name = t.team_size) (room day : String) :
    recLoad sz
      (((allocate_teams_for_days mwts ["Monday", "Wednesday"] date_map now []).2 ++
        (allocate_teams_for_days ttts ["Tuesday", "Thursday"] date_map now []).2).foldl
        (overflowStep date_map now)
        ((allocate_teams_for_days mwts ["Monday", "Wednesday"] date_map now []).1 ++
         (allocate_teams_for_days ttts ["Tuesday", "Thursday"] date_map now []).1,
         [])).1 room day ≤ room_capacities room := by
  apply foldl_overflowStep_load date_map now sz
  · intro t ht
    rcases List.mem_append.mp ht with h | h
    · exact hszmw t
        ((allocate_teams_for_days_unplaced mwts ["Monday", "Wednesday"]
          date_map now []).subset h)
    · exact hsztt t
        ((allocate_teams_for_days_unplaced ttts ["Tuesday", "Thursday"]
          date_map now []).subset h)
  · intro r d
    rw [recLoad_append]
    by_cases h1 : d ∈ (["Monday", "Wednesday"] : List String)
    · have h2 : d ∉ (["Tuesday", "Thursday"] : List String) := by
        simp only [List.mem_cons, List.not_mem_nil, or_false] at h1 ⊢
        rcases h1 with rfl | rfl <;> simp
      have hz : recLoad sz
          (allocate_teams_for_days ttts ["Tuesday", "Thursday"] date_map now []).1
          r d = 0 :=
        allocate_teams_for_days_load_zero _ _ _ _ _ _ _ _ (Or.inl h2)
      have hb := allocate_teams_for_days_load (by decide) mwts date_map now []
        sz hszmw r d h1
      rw [accountExisting_nil] at hb
      rw [hz]
      omega
    · by_cases h3 : d ∈ (["Tuesday", "Thursday"] : List String)
      · have hz : recLoad sz
            (allocate_teams_for_days mwts ["Monday", "Wednesday"] date_map now []).1
            r d = 0 :=
          allocate_teams_for_days_load_zero _ _ _ _ _ _ _ _ (Or.inl h1)
        have hb := allocate_teams_for_days_load (by decide) ttts date_map now []
          sz hsztt r d h3
        rw [accountExisting_nil] at hb
        rw [hz]
        omega
      · have hz1 : recLoad sz
            (allocate_teams_for_days mwts ["Monday", "Wednesday"] date_map now []).1
            r d = 0 :=
          allocate_teams_for_days_load_zero _ _ _ _ _ _ _ _ (Or.inl h1)
        have hz2 : recLoad sz
            (allocate_teams_for_days ttts ["Tuesday", "Thursday"] date_map now []).1
            r d = 0 :=
          allocate_teams_for_days_load_zero _ _ _ _ _ _ _ _ (Or.inl h3)
        rw [hz1, hz2]
        exact Nat.zero_le _

/-- C1: whatever the shuffles do, in every allocation set produced by
`allocate_rooms` from valid preferences the sizes of the distinct teams
assigned to one room on one day sum to at most that room capacity
(6 for Rooms A and B, 4 for Rooms C through I). -/
theorem C1_room_capacity_invariant
    (orderMW orderTT : List TeamPref → List TeamPref)
    (hMW : ∀ l, (orderMW l).Perm l) (hTT : ∀ l, (orderTT l).Perm l)
    (preferences : List TeamPref)
    (hnd : (preferences.map fun p => p.team_name).Nodup)
    (hsize : ∀ p ∈ preferences, 3 ≤ p.team_size ∧ p.team_size ≤ 6)
    (hdays : ∀ p ∈ preferences, p.preferred_days = "Monday & Wednesday" ∨
      p.preferred_days = "Tuesday & Thursday")
    (date_map : String → String) (now : String) (room day : String) :
    roomDayLoadDistinct preferences
      (allocate_rooms orderMW orderTT preferences date_map now).1 room day ≤
      room_capacities room := by
  refine le_trans (roomDayLoadDistinct_le preferences _ room day) ?_
  rw [roomDayLoad_eq_recLoad]
  by_cases hP : preferences.isEmpty
  · have hempty : allocate_rooms orderMW orderTT preferences date_map now = ([], []) := by
      rw [allocate_rooms, if_pos hP]
    rw [hempty]
    have : recLoad (team_size_of preferences) [] room day = 0 := by simp [recLoad]
    rw [this]
    exact Nat.zero_le _
  · have heq : allocate_rooms orderMW orderTT preferences date_map now =
        ((allocate_teams_for_days
            (orderMW (preferences.filter fun p =>
              p.preferred_days = "Monday & Wednesday"))
            ["Monday", "Wednesday"] date_map now []).2 ++
         (allocate_teams_for_days
            (orderTT (preferences.filter fun p =>
              p.preferred_days = "Tuesday & Thursday"))
            ["Tuesday", "Thursday"] date_map now []).2).foldl
          (overflowStep date_map now)
          ((allocate_teams_for_days
              (orderMW (preferences.filter fun p =>
                p.preferred_days = "Monday & Wednesday"))
              ["Monday", "Wednesday"] date_map now []).1 ++
           (allocate_teams_for_days
              (orderTT (preferences.filter fun p =>
                p.preferred_days = "Tuesday & Thursday"))
              ["Tuesday", "Thursday"] date_map now []).1, []) := by
      rw [allocate_rooms, if_neg hP]
    rw [heq]
    have hszmw : ∀ t ∈ orderMW (preferences.filter fun p =>
        p.preferred_days = "Monday & Wednesday"),
        team_size_of preferences t.team_name = t.team_size := by
      intro t ht
      have h1 := (hMW _).mem_iff.mp ht
      exact team_size_of_eq hnd (List.mem_of_mem_filter h1)
    have hsztt : ∀ t ∈ orderTT (preferences.filter fun p =>
        p.preferred_days = "Tuesday & Thursday"),
        team_size_of preferences t.team_name = t.team_size := by
      intro t ht
      have h1 := (hTT _).mem_iff.mp ht
      exact team_size_of_eq hnd (List.mem_of_mem_filter h1)
    exact allocate_rooms_core_load (team_size_of preferences) date_map now
      (orderMW (preferences.filter fun p =>
        p.preferred_days = "Monday & Wednesday"))
      (orderTT (preferences.filter fun p =>
        p.preferred_days = "Tuesday & Thursday"))
      hszmw hsztt room day

/-- C1 witness: two concrete valid teams, identity ordering, the bound
read off at Room A on Monday. -/
theorem C1_room_capacity_witness :
    roomDayLoadDistinct
      [{ team_name := "Alpha", contact_person := "A", team_size := 6,
         preferred_days := "Monday & Wednesday", submission_time := none },
       { team_name := "Beta", contact_person := "B", team_size := 3,
         preferred_days := "Tuesday & Thursday", submission_time := none }]
      (allocate_rooms id id
        [{ team_name := "Alpha", contact_person := "A", team_size := 6,
           preferred_days := "Monday & Wednesday", submission_time := none },
         { team_name := "Beta", contact_person := "B", team_size := 3,
           preferred_days := "Tuesday & Thursday", submission_time := none }]
        (fun d => d) "t0").1 "Room A" "Monday" ≤ room_capacities "Room A" :=
  C1_room_capacity_invariant id id (fun l => List.Perm.refl l)
    (fun l => List.Perm.refl l) _ (by decide) (by decide) (by decide)
    (fun d => d) "t0" "Room A" "Monday"

theorem records_for_eq_nil {n : String} {A : List WeeklyAllocation}
    (h : ∀ a ∈ A, a.team_name ≠ n) : records_for n A = [] := by
  rw [records_for, List.filter_eq_nil_iff]
  intro a ha
  simpa using h a ha

theorem records_for_append (n : String) (A B : List WeeklyAllocation) :
    records_for n (A ++ B) = records_for n A ++ records_for n B := by
  rw [records_for, records_for, records_for, List.filter_append]

theorem records_for_mk_self (t : TeamPref) (room : String) (days : List String)
    (date_map : String → String) (now : String) :
    records_for t.team_name (mkAllocations t room days date_map now) =
      mkAllocations t room days date_map now := by
  rw [records_for, List.filter_eq_self]
  intro a ha
  simpa using (mem_mkAllocations ha).1

theorem records_for_mk_other {t : TeamPref} {n : String} (h : t.team_name ≠ n)
    (room : String) (days : List String) (date_map : String → String)
    (now : String) :
    records_for n (mkAllocations t room days date_map now) = [] :=
  records_for_eq_nil fun a ha => (mem_mkAllocations ha).1 ▸ h

theorem allocStep_some {days : List String} {date_map : String → String}
    {now : String} {st : AllocState} {team : TeamPref} {room : String}
    (h : suitableRoom st.usage days team.team_size = some room) :
    allocStep days date_map now st team =
      { usage := addUsage st.usage days room team.team_size,
        allocations := st.allocations ++ mkAllocations team room days date_map now,
        unplaced := st.unplaced } := by
  unfold allocStep
  rw [h]

theorem allocStep_none {days : List String} {date_map : String → String}
    {now : String} {st : AllocState} {team : TeamPref}
    (h : suitableRoom st.usage days team.team_size = none) :
    allocStep days date_map now st team =
      { st with unplaced := st.unplaced ++ [team] } := by
  unfold allocStep
  rw [h]

theorem foldl_allocStep_records_other (days : List String)
    (date_map : String → String) (now : String) (n : String) :
    ∀ (ts : List TeamPref) (st : AllocState),
      (∀ t ∈ ts, t.team_name ≠ n) →
      records_for n ((ts.foldl (allocStep days date_map now) st).allocations) =
        records_for n st.allocations := by
  intro ts
  induction ts with
  | nil => intro st _; rfl
  | cons u rest ih =>
    intro st hne
    rw [List.foldl_cons]
    rw [ih _ (fun t ht => hne t (List.mem_cons_of_mem u ht))]
    rcases hfind : suitableRoom st.usage days u.team_size with _ | room
    · rw [allocStep_none hfind]
    · rw [allocStep_some hfind]
      simp only []
      rw [records_for_append,
        records_for_mk_other (hne u (List.mem_cons_self u rest)) room days,
        List.append_nil]

theorem foldl_allocStep_team (days : List String) (date_map : String → String)
    (now : String) :
    ∀ (ts : List TeamPref) (st : AllocState) (t : TeamPref), t ∈ ts →
      ((ts.map fun u => u.team_name).Nodup) →
      records_for t.team_name st.allocations = [] →
      (∀ u ∈ st.unplaced, u.team_name ≠ t.team_name) →
      ((∃ u ∈ (ts.foldl (allocStep days date_map now) st).unplaced,
          u.team_name = t.team_name) ∧
        records_for t.team_name
          ((ts.foldl (allocStep days date_map now) st).allocations) = []) ∨
      ((∀ u ∈ (ts.foldl (allocStep days date_map now) st).unplaced,
          u.team_name ≠ t.team_name) ∧
        ∃ room ∈ rooms,
          records_for t.team_name
            ((ts.foldl (allocStep days date_map now) st).allocations) =
            mkAllocations t room days date_map now) := by
  intro ts
  induction ts with
  | nil => intro st t ht; exact absurd ht (List.not_mem_nil t)
  | cons u rest ih =>
    intro st t ht hnd hrec hunp
    have hnd2 : (u.team_name :: rest.map fun v => v.team_name).Nodup := by
      simpa using hnd
    have hu_notin : u.team_name ∉ rest.map fun v => v.team_name :=
      (List.nodup_cons.mp hnd2).1
    have hnd' : (rest.map fun v => v.team_name).Nodup :=
      (List.nodup_cons.mp hnd2).2
    rw [List.foldl_cons]
    rcases List.mem_cons.mp ht with rfl | htrest
    · have hrestne : ∀ v ∈ rest, v.team_name ≠ t.team_name := by
        intro v hv hcon
        exact hu_notin (hcon ▸ List.mem_map_of_mem (fun w => w.team_name) hv)
      rcases hfind : suitableRoom st.usage days t.team_size with _ | room
      · rw [allocStep_none hfind]
        left
        constructor
        · obtain ⟨us, hequ, hsub⟩ := foldl_allocStep_unplaced days date_map now
            rest { st with unplaced := st.unplaced ++ [t] }
          rw [hequ]
          exact ⟨t, by simp, rfl⟩
        · rw [foldl_allocStep_records_other days date_map now t.team_name rest _
            hrestne]
          exact hrec
      · rw [allocStep_some hfind]
        right
        constructor
        · obtain ⟨us, hequ, hsub⟩ := foldl_allocStep_unplaced days date_map now
            rest { usage := addUsage st.usage days room t.team_size,
                   allocations := st.allocations ++
                     mkAllocations t room days date_map now,
                   unplaced := st.unplaced }
          rw [hequ]
          intro v hv
          rcases List.mem_append.mp hv with h | h
          · exact hunp v h
          · exact hrestne v (hsub.subset h)
        · refine ⟨room, (suitableRoom_eq_some hfind).1, ?_⟩
          rw [foldl_allocStep_records_other days date_map now t.team_name rest _
            hrestne]
          simp only []
          rw [records_for_append, hrec, records_for_mk_self]
          simp
    · have hne : u.team_name ≠ t.team_name := by
        intro hcon
        exact hu_notin
          (hcon ▸ List.mem_map_of_mem (fun w => w.team_name) htrest)
      apply ih _ t htrest hnd'
      · rcases hfind : suitableRoom st.usage days u.team_size with _ | room
        · rw [allocStep_none hfind]
          exact hrec
        · rw [allocStep_some hfind]
          simp only []
          rw [records_for_append, hrec, records_for_mk_other hne room days]
          rfl
      · rcases hfind : suitableRoom st.usage days u.team_size with _ | room
        · rw [allocStep_none hfind]
          simp only []
          intro v hv
          rcases List.mem_append.mp hv with h | h
          · exact hunp v h
          · rw [List.mem_singleton.mp h]
            exact hne
        · rw [allocStep_some hfind]
          exact hunp

theorem allocate_teams_for_days_single (t : TeamPref) (days : List String)
    (date_map : String → String) (now : String) (ex : List WeeklyAllocation) :
    (allocate_teams_for_days [t] days date_map now ex).1 = [] ∨
      ∃ room ∈ rooms,
        (allocate_teams_for_days [t] days date_map now ex).1 =
          mkAllocations t room days date_map now := by
  have hfull : records_for t.team_name
      (allocate_teams_for_days [t] days date_map now ex).1 =
      (allocate_teams_for_days [t] days date_map now ex).1 := by
    rw [records_for, List.filter_eq_self]
    intro a ha
    obtain ⟨-, -, v, hv, hname⟩ :=
      allocate_teams_for_days_mem [t] days date_map now ex a ha
    rw [List.mem_singleton.mp hv] at hname
    simpa using hname
  have h := foldl_allocStep_team days date_map now [t]
    { usage := accountExisting days ex, allocations := [], unplaced := [] } t
    (List.mem_singleton_self t) (by simp) rfl (by simp)
  rcases h with ⟨-, hrec⟩ | ⟨-, room, hroom, hrec⟩
  · left
    rw [← hfull]
    exact hrec
  · right
    refine ⟨room, hroom, ?_⟩
    rw [← hfull]
    exact hrec

theorem allocate_teams_for_days_names (ts : List TeamPref) (days : List String)
    (date_map : String → String) (now : String) (ex : List WeeklyAllocation)
    {n : String} (h : ∀ t ∈ ts, t.team_name ≠ n) :
    records_for n (allocate_teams_for_days ts days date_map now ex).1 = [] := by
  apply records_for_eq_nil
  intro a ha hcon
  obtain ⟨-, -, v, hv, hname⟩ :=
    allocate_teams_for_days_mem ts days date_map now ex a ha
  exact h v hv (by rw [← hname, hcon])

theorem foldl_overflowStep_other (date_map : String → String) (now : String)
    (n : String) :
    ∀ (us : List TeamPref) (st : List WeeklyAllocation × List String),
      (∀ u ∈ us, u.team_name ≠ n) →
      records_for n (us.foldl (overflowStep date_map now) st).1 =
          records_for n st.1 ∧
        (n ∈ (us.foldl (overflowStep date_map now) st).2 ↔ n ∈ st.2) := by
  intro us
  induction us with
  | nil => intro st _; exact ⟨rfl, Iff.rfl⟩
  | cons u rest ih =>
    intro st hne
    rw [List.foldl_cons]
    obtain ⟨h1, h2⟩ := ih (overflowStep date_map now st u)
      (fun v hv => hne v (List.mem_cons_of_mem u hv))
    have hun : u.team_name ≠ n := hne u (List.mem_cons_self u rest)
    constructor
    · rw [h1]
      simp only [overflowStep]
      split <;> split
      · rfl
      · rw [records_for_append,
          allocate_teams_for_days_names [u] _ date_map now st.1
            (fun v hv => (List.mem_singleton.mp hv) ▸ hun),
          List.append_nil]
      · rfl
      · rw [records_for_append,
          allocate_teams_for_days_names [u] _ date_map now st.1
            (fun v hv => (List.mem_singleton.mp hv) ▸ hun),
          List.append_nil]
    · rw [h2]
      simp only [overflowStep]
      split <;> split
      · simp only [List.mem_append, List.mem_singleton]
        constructor
        · rintro (h | h)
          · exact h
          · exact absurd h.symm hun
        · exact Or.inl
      · exact Iff.rfl
      · simp only [List.mem_append, List.mem_singleton]
        constructor
        · rintro (h | h)
          · exact h
          · exact absurd h.symm hun
        · exact Or.inl
      · exact Iff.rfl

theorem foldl_overflowStep_team (date_map : String → String) (now : String) :
    ∀ (us : List TeamPref) (st : List WeeklyAllocation × List String)
      (t : TeamPref), t ∈ us →
      ((us.map fun u => u.team_name).Nodup) →
      records_for t.team_name st.1 = [] →
      t.team_name ∉ st.2 →
      (records_for t.team_name (us.foldl (overflowStep date_map now) st).1 = [] ∧
        t.team_name ∈ (us.foldl (overflowStep date_map now) st).2) ∨
      (∃ room ∈ rooms, ∃ days',
        (days' = ["Tuesday", "Thursday"] ∨ days' = ["Monday", "Wednesday"]) ∧
        records_for t.team_name (us.foldl (overflowStep date_map now) st).1 =
          mkAllocations t room days' date_map now ∧
        t.team_name ∉ (us.foldl (overflowStep date_map now) st).2) := by
  intro us
  induction us with
  | nil => intro st t ht; exact absurd ht (List.not_mem_nil t)
  | cons u rest ih =>
    intro st t ht hnd hrec hnotin
    have hnd2 : (u.team_name :: rest.map fun v => v.team_name).Nodup := by
      simpa using hnd
    have hu_notin : u.team_name ∉ rest.map fun v => v.team_name :=
      (List.nodup_cons.mp hnd2).1
    have hnd' : (rest.map fun v => v.team_name).Nodup :=
      (List.nodup_cons.mp hnd2).2
    rw [List.foldl_cons]
    rcases List.mem_cons.mp ht with rfl | htrest
    · have hrestne : ∀ v ∈ rest, v.team_name ≠ t.team_name := by
        intro v hv hcon
        exact hu_notin (hcon ▸ List.mem_map_of_mem (fun w => w.team_name) hv)
      obtain ⟨hpres1, hpres2⟩ := foldl_overflowStep_other date_map now
        t.team_name rest (overflowStep date_map now st t) hrestne
      rcases allocate_teams_for_days_single t
          (if t.preferred_days = "Monday & Wednesday"
            then ["Tuesday", "Thursday"] else ["Monday", "Wednesday"])
          date_map now st.1 with hempty | ⟨room, hroom, hmk⟩
      · left
        have hstep : overflowStep date_map now st t =
            (st.1, st.2 ++ [t.team_name]) := by
          simp only [overflowStep]
          rw [hempty]
          simp
        constructor
        · rw [hpres1, hstep]
          exact hrec
        · rw [hpres2, hstep]
          simp
      · right
        have hne2 : (allocate_teams_for_days [t]
            (if t.preferred_days = "Monday & Wednesday"
              then ["Tuesday", "Thursday"] else ["Monday", "Wednesday"])
            date_map now st.1).1 ≠ [] := by
          rw [hmk]
          rcases hc : decide (t.preferred_days = "Monday & Wednesday") with _ | _
          · rw [if_neg (by simpa using hc)]
            simp [mkAllocations]
          · rw [if_pos (by simpa using hc)]
            simp [mkAllocations]
        have hstep : overflowStep date_map now st t =
            (st.1 ++ (allocate_teams_for_days [t]
              (if t.preferred_days = "Monday & Wednesday"
                then ["Tuesday", "Thursday"] else ["Monday", "Wednesday"])
              date_map now st.1).1, st.2) := by
          simp only [overflowStep]
          rw [if_neg (by simpa using hne2)]
        refine ⟨room, hroom,
          (if t.preferred_days = "Monday & Wednesday"
            then ["Tuesday", "Thursday"] else ["Monday", "Wednesday"]), ?_, ?_, ?_⟩
        · split
          · exact Or.inl rfl
          · exact Or.inr rfl
        · rw [hpres1, hstep]
          simp only []
          rw [records_for_append, hrec, hmk, records_for_mk_self]
          rfl
        · rw [hpres2, hstep]
          exact hnotin
    · have hne : u.team_name ≠ t.team_name := by
        intro hcon
        exact hu_notin
          (hcon ▸ List.mem_map_of_mem (fun w => w.team_name) htrest)
      apply ih _ t htrest hnd'
      · simp only [overflowStep]
        split <;> split
        · exact hrec
        · rw [records_for_append, hrec,
            allocate_teams_for_days_names [u] _ date_map now st.1
              (fun v hv => (List.mem_singleton.mp hv) ▸ hne)]
          rfl
        · exact hrec
        · rw [records_for_append, hrec,
            allocate_teams_for_days_names [u] _ date_map now st.1
              (fun v hv => (List.mem_singleton.mp hv) ▸ hne)]
          rfl
      · simp only [overflowStep]
        split <;> split
        · simp only [List.mem_append, List.mem_singleton]
          rintro (h | h)
          · exact hnotin h
          · exact hne h.symm
        · exact hnotin
        · simp only [List.mem_append, List.mem_singleton]
          rintro (h | h)
          · exact hnotin h
          · exact hne h.symm
        · exact hnotin

theorem allocate_rooms_eq (orderMW orderTT : List TeamPref → List TeamPref)
    (preferences : List TeamPref) (date_map : String → String) (now : String)
    (hP : ¬ preferences.isEmpty = true) :
    allocate_rooms orderMW orderTT preferences date_map now =
      ((allocate_teams_for_days
          (orderMW (preferences.filter fun p =>
            p.preferred_days = "Monday & Wednesday"))
          ["Monday", "Wednesday"] date_map now []).2 ++
       (allocate_teams_for_days
          (orderTT (preferences.filter fun p =>
            p.preferred_days = "Tuesday & Thursday"))
          ["Tuesday", "Thursday"] date_map now []).2).foldl
        (overflowStep date_map now)
        ((allocate_teams_for_days
            (orderMW (preferences.filter fun p =>
              p.preferred_days = "Monday & Wednesday"))
            ["Monday", "Wednesday"] date_map now []).1 ++
         (allocate_teams_for_days
            (orderTT (preferences.filter fun p =>
              p.preferred_days = "Tuesday & Thursday"))
            ["Tuesday", "Thursday"] date_map now []).1, []) := by
  rw [allocate_rooms, if_neg hP]

/-- C5: with valid preferences and distinct team names, every submitted
team either receives exactly the two records of one full day pair
(Monday and Wednesday, or Tuesday and Thursday) in a single catalog room
and is absent from the unplaced list, or receives no record at all and
its name is reported unplaced. -/
theorem C5_full_pair_or_unplaced
    (orderMW orderTT : List TeamPref → List TeamPref)
    (hMW : ∀ l, (orderMW l).Perm l) (hTT : ∀ l, (orderTT l).Perm l)
    (preferences : List TeamPref)
    (hnd : (preferences.map fun p => p.team_name).Nodup)
    (hdays : ∀ p ∈ preferences, p.preferred_days = "Monday & Wednesday" ∨
      p.preferred_days = "Tuesday & Thursday")
    (date_map : String → String) (now : String)
    (t : TeamPref) (ht : t ∈ preferences) :
    (∃ room ∈ rooms, ∃ d₁ d₂,
      ((d₁ = "Monday" ∧ d₂ = "Wednesday") ∨ (d₁ = "Tuesday" ∧ d₂ = "Thursday")) ∧
      records_for t.team_name
        (allocate_rooms orderMW orderTT preferences date_map now).1 =
        mkAllocations t room [d₁, d₂] date_map now ∧
      t.team_name ∉ (allocate_rooms orderMW orderTT preferences date_map now).2) ∨
    (records_for t.team_name
        (allocate_rooms orderMW orderTT preferences date_map now).1 = [] ∧
      t.team_name ∈ (allocate_rooms orderMW orderTT preferences date_map now).2) := by
  have hP : ¬ preferences.isEmpty = true := by
    cases preferences with
    | nil => exact absurd ht (List.not_mem_nil t)
    | cons a l => simp
  rw [allocate_rooms_eq orderMW orderTT preferences date_map now hP]
  set mwts := orderMW (preferences.filter fun p =>
    p.preferred_days = "Monday & Wednesday") with hmwts
  set ttts := orderTT (preferences.filter fun p =>
    p.preferred_days = "Tuesday & Thursday") with httts
  set mwR := allocate_teams_for_days mwts ["Monday", "Wednesday"] date_map now []
    with hmwR
  set ttR := allocate_teams_for_days ttts ["Tuesday", "Thursday"] date_map now []
    with httR
  have hmw_sub : ∀ v ∈ mwts, v ∈ preferences ∧
      v.preferred_days = "Monday & Wednesday" := by
    intro v hv
    have h1 := (hMW _).mem_iff.mp hv
    exact ⟨List.mem_of_mem_filter h1, by simpa using (List.mem_filter.mp h1).2⟩
  have htt_sub : ∀ v ∈ ttts, v ∈ preferences ∧
      v.preferred_days = "Tuesday & Thursday" := by
    intro v hv
    have h1 := (hTT _).mem_iff.mp hv
    exact ⟨List.mem_of_mem_filter h1, by simpa using (List.mem_filter.mp h1).2⟩
  have hmw_nodup : (mwts.map fun v => v.team_name).Nodup := by
    have h1 : ((preferences.filter fun p =>
        p.preferred_days = "Monday & Wednesday").map fun v => v.team_name).Nodup :=
      ((List.filter_sublist _).map _).nodup hnd
    exact (((hMW _).map fun v => v.team_name).symm).nodup h1
  have htt_nodup : (ttts.map fun v => v.team_name).Nodup := by
    have h1 : ((preferences.filter fun p =>
        p.preferred_days = "Tuesday & Thursday").map fun v => v.team_name).Nodup :=
      ((List.filter_sublist _).map _).nodup hnd
    exact (((hTT _).map fun v => v.team_name).symm).nodup h1
  have hdisj : ∀ v₁ ∈ mwts, ∀ v₂ ∈ ttts, v₂.team_name ≠ v₁.team_name := by
    intro v₁ hv₁ v₂ hv₂ hcon
    obtain ⟨hp₁, hd₁⟩ := hmw_sub v₁ hv₁
    obtain ⟨hp₂, hd₂⟩ := htt_sub v₂ hv₂
    have : v₂ = v₁ := List.inj_on_of_nodup_map hnd hp₂ hp₁ hcon
    rw [this, hd₁] at hd₂
    exact absurd hd₂ (by decide)
  have hnd_unp : ((mwR.2 ++ ttR.2).map fun v => v.team_name).Nodup := by
    rw [List.map_append, List.nodup_append]
    refine ⟨((allocate_teams_for_days_unplaced mwts _ date_map now []).map _).nodup
        hmw_nodup,
      ((allocate_teams_for_days_unplaced ttts _ date_map now []).map _).nodup
        htt_nodup, ?_⟩
    rw [List.disjoint_left]
    intro n hn1 hn2
    obtain ⟨v₁, hv₁, rfl⟩ := List.mem_map.mp hn1
    obtain ⟨v₂, hv₂, hv₂n⟩ := List.mem_map.mp hn2
    exact hdisj v₁
      ((allocate_teams_for_days_unplaced mwts _ date_map now []).subset hv₁) v₂
      ((allocate_teams_for_days_unplaced ttts _ date_map now []).subset hv₂) hv₂n
  rcases hdays t ht with hMWt | hTTt
  · have htmw : t ∈ mwts := (hMW _).mem_iff.mpr
      (List.mem_filter.mpr ⟨ht, by simp [hMWt]⟩)
    have httnames : ∀ v ∈ ttts, v.team_name ≠ t.team_name := by
      intro v hv hcon
      obtain ⟨hvp, hvd⟩ := htt_sub v hv
      have : v = t := List.inj_on_of_nodup_map hnd hvp ht hcon
      rw [this, hMWt] at hvd
      exact absurd hvd (by decide)
    have httrec : records_for t.team_name ttR.1 = [] :=
      allocate_teams_for_days_names ttts _ date_map now [] httnames
    have hmain := foldl_allocStep_team ["Monday", "Wednesday"] date_map now mwts
      { usage := accountExisting ["Monday", "Wednesday"] [], allocations := [],
        unplaced := [] } t htmw hmw_nodup rfl (by simp)
    rcases hmain with ⟨⟨u, hu, hun⟩, hrec0⟩ | ⟨hnone, room, hroom, hrec⟩
    · have hut : u = t := by
        have husub : u ∈ mwts :=
          (allocate_teams_for_days_unplaced mwts _ date_map now []).subset hu
        exact List.inj_on_of_nodup_map hnd (hmw_sub u husub).1 ht hun
      have htin : t ∈ mwR.2 ++ ttR.2 := List.mem_append_left _ (hut ▸ hu)
      have hrecbase : records_for t.team_name (mwR.1 ++ ttR.1) = [] := by
        rw [records_for_append]
        have h1 : records_for t.team_name mwR.1 = [] := hrec0
        rw [h1, httrec]
        rfl
      have hfin := foldl_overflowStep_team date_map now (mwR.2 ++ ttR.2)
        (mwR.1 ++ ttR.1, []) t htin hnd_unp hrecbase (by simp)
      rcases hfin with ⟨hrecfin, hinfin⟩ | ⟨room, hroom, days', hdays', hrecfin, hninfin⟩
      · exact Or.inr ⟨hrecfin, hinfin⟩
      · rcases hdays' with rfl | rfl
        · exact Or.inl ⟨room, hroom, "Tuesday", "Thursday", Or.inr ⟨rfl, rfl⟩,
            hrecfin, hninfin⟩
        · exact Or.inl ⟨room, hroom, "Monday", "Wednesday", Or.inl ⟨rfl, rfl⟩,
            hrecfin, hninfin⟩
    · have hrecbase : records_for t.team_name (mwR.1 ++ ttR.1) =
          mkAllocations t room ["Monday", "Wednesday"] date_map now := by
        rw [records_for_append]
        have h1 : records_for t.team_name mwR.1 =
            mkAllocations t room ["Monday", "Wednesday"] date_map now := hrec
        rw [h1, httrec, List.append_nil]
      have hunp_ne : ∀ v ∈ mwR.2 ++ ttR.2, v.team_name ≠ t.team_name := by
        intro v hv
        rcases List.mem_append.mp hv with h | h
        · exact hnone v h
        · exact httnames v
            ((allocate_teams_for_days_unplaced ttts _ date_map now []).subset h)
      obtain ⟨hpres1, hpres2⟩ := foldl_overflowStep_other date_map now
        t.team_name (mwR.2 ++ ttR.2) (mwR.1 ++ ttR.1, []) hunp_ne
      refine Or.inl ⟨room, hroom, "Monday", "Wednesday", Or.inl ⟨rfl, rfl⟩, ?_, ?_⟩
      · rw [hpres1]
        exact hrecbase
      · intro hcon
        exact absurd (hpres2.mp hcon) (List.not_mem_nil _)
  · have httt : t ∈ ttts := (hTT _).mem_iff.mpr
      (List.mem_filter.mpr ⟨ht, by simp [hTTt]⟩)
    have hmwnames : ∀ v ∈ mwts, v.team_name ≠ t.team_name := by
      intro v hv hcon
      obtain ⟨hvp, hvd⟩ := hmw_sub v hv
      have : v = t := List.inj_on_of_nodup_map hnd hvp ht hcon
      rw [this, hTTt] at hvd
      exact absurd hvd (by decide)
    have hmwrec : records_for t.team_name mwR.1 = [] :=
      allocate_teams_for_days_names mwts _ date_map now [] hmwnames
    have hmain := foldl_allocStep_team ["Tuesday", "Thursday"] date_map now ttts
      { usage := accountExisting ["Tuesday", "Thursday"] [], allocations := [],
        unplaced := [] } t httt htt_nodup rfl (by simp)
    rcases hmain with ⟨⟨u, hu, hun⟩, hrec0⟩ | ⟨hnone, room, hroom, hrec⟩
    · have hut : u = t := by
        have husub : u ∈ ttts :=
          (allocate_teams_for_days_unplaced ttts _ date_map now []).subset hu
        exact List.inj_on_of_nodup_map hnd (htt_sub u husub).1 ht hun
      have htin : t ∈ mwR.2 ++ ttR.2 := List.mem_append_right _ (hut ▸ hu)
      have hrecbase : records_for t.team_name (mwR.1 ++ ttR.1) = [] := by
        rw [records_for_append]
        have h1 : records_for t.team_name ttR.1 = [] := hrec0
        rw [h1, hmwrec]
        rfl
      have hfin := foldl_overflowStep_team date_map now (mwR.2 ++ ttR.2)
        (mwR.1 ++ ttR.1, []) t htin hnd_unp hrecbase (by simp)
      rcases hfin with ⟨hrecfin, hinfin⟩ | ⟨room, hroom, days', hdays', hrecfin, hninfin⟩
      · exact Or.inr ⟨hrecfin, hinfin⟩
      · rcases hdays' with rfl | rfl
        · exact Or.inl ⟨room, hroom, "Tuesday", "Thursday", Or.inr ⟨rfl, rfl⟩,
            hrecfin, hninfin⟩
        · exact Or.inl ⟨room, hroom, "Monday", "Wednesday", Or.inl ⟨rfl, rfl⟩,
            hrecfin, hninfin⟩
    · have hrecbase : records_for t.team_name (mwR.1 ++ ttR.1) =
          mkAllocations t room ["Tuesday", "Thursday"] date_map now := by
        rw [records_for_append]
        have h1 : records_for t.team_name ttR.1 =
            mkAllocations t room ["Tuesday", "Thursday"] date_map now := hrec
        rw [h1, hmwrec, List.nil_append]
      have hunp_ne : ∀ v ∈ mwR.2 ++ ttR.2, v.team_name ≠ t.team_name := by
        intro v hv
        rcases List.mem_append.mp hv with h | h
        · exact hmwnames v
            ((allocate_teams_for_days_unplaced mwts _ date_map now []).subset h)
        · exact hnone v h
      obtain ⟨hpres1, hpres2⟩ := foldl_overflowStep_other date_map now
        t.team_name (mwR.2 ++ ttR.2) (mwR.1 ++ ttR.1, []) hunp_ne
      refine Or.inl ⟨room, hroom, "Tuesday", "Thursday", Or.inr ⟨rfl, rfl⟩, ?_, ?_⟩
      · rw [hpres1]
        exact hrecbase
      · intro hcon
        exact absurd (hpres2.mp hcon) (List.not_mem_nil _)

/-- C5 witness: a single valid team, identity orderings. -/
theorem C5_full_pair_witness :
    (∃ room ∈ rooms, ∃ d₁ d₂,
      ((d₁ = "Monday" ∧ d₂ = "Wednesday") ∨ (d₁ = "Tuesday" ∧ d₂ = "Thursday")) ∧
      records_for "Alpha"
        (allocate_rooms id id
          [{ team_name := "Alpha", contact_person := "A", team_size := 4,
             preferred_days := "Monday & Wednesday", submission_time := none }]
          (fun d => d) "t0").1 =
        mkAllocations
          { team_name := "Alpha", contact_person := "A", team_size := 4,
            preferred_days := "Monday & Wednesday", submission_time := none }
          room [d₁, d₂] (fun d => d) "t0" ∧
      "Alpha" ∉ (allocate_rooms id id
          [{ team_name := "Alpha", contact_person := "A", team_size := 4,
             preferred_days := "Monday & Wednesday", submission_time := none }]
          (fun d => d) "t0").2) ∨
    (records_for "Alpha"
        (allocate_rooms id id
          [{ team_name := "Alpha", contact_person := "A", team_size := 4,
             preferred_days := "Monday & Wednesday", submission_time := none }]
          (fun d => d) "t0").1 = [] ∧
      "Alpha" ∈ (allocate_rooms id id
          [{ team_name := "Alpha", contact_person := "A", team_size := 4,
             preferred_days := "Monday & Wednesday", submission_time := none }]
          (fun d => d) "t0").2) :=
  C5_full_pair_or_unplaced id id (fun l => List.Perm.refl l)
    (fun l => List.Perm.refl l)
    [{ team_name := "Alpha", contact_person := "A", team_size := 4,
       preferred_days := "Monday & Wednesday", submission_time := none }]
    (by decide) (by decide) (fun d => d) "t0"
    { team_name := "Alpha", contact_person := "A", team_size := 4,
      preferred_days := "Monday & Wednesday", submission_time := none }
    (List.mem_singleton_self _)

/-- C10: a team whose requested day pair is neither of the two valid
strings is silently dropped by `allocate_rooms`: it generates no
allocation record and its name is not reported in the unplaced list. -/
theorem C10_invalid_days_silently_dropped
    (orderMW orderTT : List TeamPref → List TeamPref)
    (hMW : ∀ l, (orderMW l).Perm l) (hTT : ∀ l, (orderTT l).Perm l)
    (preferences : List TeamPref)
    (hnd : (preferences.map fun p => p.team_name).Nodup)
    (date_map : String → String) (now : String)
    (t : TeamPref) (ht : t ∈ preferences)
    (hinv1 : t.preferred_days ≠ "Monday & Wednesday")
    (hinv2 : t.preferred_days ≠ "Tuesday & Thursday") :
    records_for t.team_name
        (allocate_rooms orderMW orderTT preferences date_map now).1 = [] ∧
      t.team_name ∉ (allocate_rooms orderMW orderTT preferences date_map now).2 := by
  have hP : ¬ preferences.isEmpty = true := by
    cases preferences with
    | nil => exact absurd ht (List.not_mem_nil t)
    | cons a l => simp
  rw [allocate_rooms_eq orderMW orderTT preferences date_map now hP]
  set mwts := orderMW (preferences.filter fun p =>
    p.preferred_days = "Monday & Wednesday") with hmwts
  set ttts := orderTT (preferences.filter fun p =>
    p.preferred_days = "Tuesday & Thursday") with httts
  set mwR := allocate_teams_for_days mwts ["Monday", "Wednesday"] date_map now []
    with hmwR
  set ttR := allocate_teams_for_days ttts ["Tuesday", "Thursday"] date_map now []
    with httR
  have hmwnames : ∀ v ∈ mwts, v.team_name ≠ t.team_name := by
    intro v hv hcon
    have h1 := (hMW _).mem_iff.mp hv
    have : v = t := List.inj_on_of_nodup_map hnd (List.mem_of_mem_filter h1) ht hcon
    have h2 := (List.mem_filter.mp h1).2
    rw [this] at h2
    exact hinv1 (by simpa using h2)
  have httnames : ∀ v ∈ ttts, v.team_name ≠ t.team_name := by
    intro v hv hcon
    have h1 := (hTT _).mem_iff.mp hv
    have : v = t := List.inj_on_of_nodup_map hnd (List.mem_of_mem_filter h1) ht hcon
    have h2 := (List.mem_filter.mp h1).2
    rw [this] at h2
    exact hinv2 (by simpa using h2)
  have hunp_ne : ∀ v ∈ mwR.2 ++ ttR.2, v.team_name ≠ t.team_name := by
    intro v hv
    rcases List.mem_append.mp hv with h | h
    · exact hmwnames v
        ((allocate_teams_for_days_unplaced mwts _ date_map now []).subset h)
    · exact httnames v
        ((allocate_teams_for_days_unplaced ttts _ date_map now []).subset h)
  obtain ⟨hpres1, hpres2⟩ := foldl_overflowStep_other date_map now
    t.team_name (mwR.2 ++ ttR.2) (mwR.1 ++ ttR.1, []) hunp_ne
  constructor
  · rw [hpres1, records_for_append,
      allocate_teams_for_days_names mwts _ date_map now [] hmwnames,
      allocate_teams_for_days_names ttts _ date_map now [] httnames]
    rfl
  · intro hcon
    exact absurd (hpres2.mp hcon) (List.not_mem_nil _)

/-- C10 witness: one team asking for the invalid pair Friday and
Saturday vanishes from both outputs. -/
theorem C10_invalid_days_witness :
    records_for "Ghost"
        (allocate_rooms id id
          [{ team_name := "Ghost", contact_person := "G", team_size := 4,
             preferred_days := "Friday & Saturday", submission_time := none }]
          (fun d => d) "t0").1 = [] ∧
      "Ghost" ∉ (allocate_rooms id id
          [{ team_name := "Ghost", contact_person := "G", team_size := 4,
             preferred_days := "Friday & Saturday", submission_time := none }]
          (fun d => d) "t0").2 :=
  C10_invalid_days_silently_dropped id id (fun l => List.Perm.refl l)
    (fun l => List.Perm.refl l)
    [{ team_name := "Ghost", contact_person := "G", team_size := 4,
       preferred_days := "Friday & Saturday", submission_time := none }]
    (by decide) (fun d => d) "t0"
    { team_name := "Ghost", contact_person := "G", team_size := 4,
      preferred_days := "Friday & Saturday", submission_time := none }
    (List.mem_singleton_self _) (by decide) (by decide)

theorem occ_le (usage : String → String → Nat) : occ usage ≤ 9 := by
  have h := rooms.length_filter_le fun r => decide (usage "Monday" r ≠ 0)
  have h9 : rooms.length = 9 := rfl
  rw [occ]
  omega

theorem exists_free_of_occ_lt (usage : String → String → Nat)
    (h : occ usage < 9) : ∃ r ∈ rooms, usage "Monday" r = 0 := by
  by_contra hcon
  push_neg at hcon
  have hall : rooms.filter (fun r => usage "Monday" r ≠ 0) = rooms := by
    rw [List.filter_eq_self]
    intro r hr
    simpa using hcon r hr
  rw [occ, hall] at h
  have h9 : rooms.length = 9 := rfl
  omega

theorem suitable4_some_free {usage : String → String → Nat}
    (hinv : Inv4 usage) {room : String}
    (h : suitableRoom usage ["Monday", "Wednesday"] 4 = some room) :
    room ∈ rooms ∧ usage "Monday" room = 0 := by
  obtain ⟨hr, hcap, havail⟩ := suitableRoom_eq_some h
  refine ⟨hr, ?_⟩
  have h1 := havail "Monday" (by simp)
  have hcaple : room_capacities room ≤ 6 :=
    (show ∀ r ∈ rooms, room_capacities r ≤ 6 by decide) room hr
  rcases hinv.2 room with h0 | h4
  · exact h0
  · rw [h4] at h1
    omega

theorem suitable4_ne_none_of_free {usage : String → String → Nat}
    (hinv : Inv4 usage) {r₀ : String} (hr₀ : r₀ ∈ rooms)
    (hfree : usage "Monday" r₀ = 0) :
    suitableRoom usage ["Monday", "Wednesday"] 4 ≠ none := by
  have hcap : 4 ≤ room_capacities r₀ :=
    (show ∀ r ∈ rooms, 4 ≤ room_capacities r by decide) r₀ hr₀
  apply suitableRoom_ne_none hr₀ hcap
  intro d hd
  rcases (by simpa using hd : d = "Monday" ∨ d = "Wednesday") with rfl | rfl
  · rw [hfree]
    omega
  · rw [hinv.1 r₀, hfree]
    omega

theorem all_full_of_occ_eq (usage : String → String → Nat) (hinv : Inv4 usage)
    (h : occ usage = 9) : ∀ r ∈ rooms, usage "Monday" r = 4 := by
  have heq : rooms.filter (fun r => usage "Monday" r ≠ 0) = rooms :=
    (List.filter_sublist _).eq_of_length (by rw [← occ, h]; rfl)
  intro r hr
  have hmem : r ∈ rooms.filter (fun r => usage "Monday" r ≠ 0) := by
    rw [heq]
    exact hr
  have hne : usage "Monday" r ≠ 0 := by simpa using (List.mem_filter.mp hmem).2
  rcases hinv.2 r with h0 | h4
  · exact absurd h0 hne
  · exact h4

theorem suitable4_none_of_full (usage : String → String → Nat)
    (hinv : Inv4 usage) (h : occ usage = 9) :
    suitableRoom usage ["Monday", "Wednesday"] 4 = none := by
  rcases hfind : suitableRoom usage ["Monday", "Wednesday"] 4 with _ | room
  · rfl
  · obtain ⟨hr, hfree⟩ := suitable4_some_free hinv hfind
    have := all_full_of_occ_eq usage hinv h room hr
    omega

theorem length_filter_flip :
    ∀ {l : List String}, l.Nodup → ∀ {ρ : String}, ρ ∈ l →
      ∀ (p q : String → Bool), (∀ r, r ≠ ρ → p r = q r) →
        p ρ = false → q ρ = true →
        (l.filter q).length = (l.filter p).length + 1 := by
  intro l
  induction l with
  | nil => intro _ ρ hρ; exact absurd hρ (List.not_mem_nil ρ)
  | cons a l ih =>
    intro hnd ρ hρ p q hagree hp hq
    have hnd' : l.Nodup := hnd.of_cons
    have ha_not : a ∉ l := (List.nodup_cons.mp hnd).1
    rcases List.mem_cons.mp hρ with rfl | hρl
    · have hfilt : l.filter q = l.filter p :=
        List.filter_congr fun r hr => (hagree r (fun hc => ha_not (hc ▸ hr))).symm
      rw [List.filter_cons, List.filter_cons, hq, hp]
      simp [hfilt]
    · have hane : a ≠ ρ := fun hc => ha_not (hc ▸ hρl)
      have hpa : p a = q a := hagree a hane
      rcases hb : p a with _ | _
      · have hqa : q a = false := by rw [← hpa, hb]
        rw [List.filter_cons, List.filter_cons, hb, hqa]
        simpa using ih hnd' hρl p q hagree hp hq
      · have hqa : q a = true := by rw [← hpa, hb]
        rw [List.filter_cons, List.filter_cons, hb, hqa]
        simpa using ih hnd' hρl p q hagree hp hq

theorem addUsage4_occ (usage : String → String → Nat) (hinv : Inv4 usage)
    {room : String} (hr : room ∈ rooms) (hfree : usage "Monday" room = 0) :
    Inv4 (addUsage usage ["Monday", "Wednesday"] room 4) ∧
      occ (addUsage usage ["Monday", "Wednesday"] room 4) = occ usage + 1 := by
  have hnd : (["Monday", "Wednesday"] : List String).Nodup := by decide
  constructor
  · constructor
    · intro r
      rw [addUsage_apply hnd, addUsage_apply hnd]
      by_cases hrr : r = room
      · rw [if_pos ⟨by simp, hrr⟩, if_pos ⟨by simp, hrr⟩, hinv.1 r]
      · rw [if_neg (fun hc => hrr hc.2), if_neg (fun hc => hrr hc.2), hinv.1 r]
    · intro r
      rw [addUsage_apply hnd]
      by_cases hrr : r = room
      · rw [if_pos ⟨by simp, hrr⟩, hrr, hfree]
        right
        rfl
      · rw [if_neg (fun hc => hrr hc.2)]
        exact hinv.2 r
  · refine length_filter_flip (by decide) hr _ _ ?_ ?_ ?_
    · intro r hrr
      have hsame : addUsage usage ["Monday", "Wednesday"] room 4 "Monday" r =
          usage "Monday" r := by
        rw [addUsage_apply hnd, if_neg (fun hc => hrr hc.2)]
      rw [hsame]
    · simp [hfree]
    · have hval : addUsage usage ["Monday", "Wednesday"] room 4 "Monday" room = 4 := by
        rw [addUsage_apply hnd, if_pos ⟨by simp, rfl⟩, hfree]
      simp [hval]

theorem foldl_allocStep_alloc_prefix (days : List String)
    (date_map : String → String) (now : String) :
    ∀ (ts : List TeamPref) (st : AllocState),
      ∃ ext, (ts.foldl (allocStep days date_map now) st).allocations =
        st.allocations ++ ext := by
  intro ts
  induction ts with
  | nil => intro st; exact ⟨[], by simp⟩
  | cons t rest ih =>
    intro st
    rw [List.foldl_cons]
    rcases hfind : suitableRoom st.usage days t.team_size with _ | room
    · rw [allocStep_none hfind]
      obtain ⟨ext, hext⟩ := ih { st with unplaced := st.unplaced ++ [t] }
      exact ⟨ext, hext⟩
    · rw [allocStep_some hfind]
      obtain ⟨ext, hext⟩ := ih
        { usage := addUsage st.usage days room t.team_size,
          allocations := st.allocations ++ mkAllocations t room days date_map now,
          unplaced := st.unplaced }
      exact ⟨mkAllocations t room days date_map now ++ ext, by
        rw [hext]
        simp [List.append_assoc]⟩

theorem mkAllocations_mem_head (u : TeamPref) (room d : String)
    (ds : List String) (date_map : String → String) (now : String) :
    ∃ a ∈ mkAllocations u room (d :: ds) date_map now,
      a.team_name = u.team_name :=
  ⟨_, List.mem_map_of_mem _ (List.mem_cons_self d ds), rfl⟩

theorem foldl_allocStep_all4 (date_map : String → String) (now : String) :
    ∀ (ts : List TeamPref) (st : AllocState),
      (∀ t ∈ ts, t.team_size = 4) →
      Inv4 st.usage →
      (ts.foldl (allocStep ["Monday", "Wednesday"] date_map now) st).unplaced =
          st.unplaced ++ ts.drop (9 - occ st.usage) ∧
        ∀ t ∈ ts.take (9 - occ st.usage),
          ∃ a ∈ (ts.foldl (allocStep ["Monday", "Wednesday"] date_map now)
              st).allocations,
            a.team_name = t.team_name := by
  intro ts
  induction ts with
  | nil =>
    intro st _ _
    constructor
    · simp
    · intro t ht
      simp at ht
  | cons t rest ih =>
    intro st hsz hinv
    have hocc9 := occ_le st.usage
    rw [List.foldl_cons]
    by_cases hocc : occ st.usage = 9
    · have hnone : suitableRoom st.usage ["Monday", "Wednesday"] t.team_size =
          none := by
        rw [hsz t (List.mem_cons_self t rest)]
        exact suitable4_none_of_full st.usage hinv hocc
      rw [allocStep_none hnone]
      obtain ⟨hu, _⟩ := ih ⟨st.usage, st.allocations, st.unplaced ++ [t]⟩
        (fun u hu => hsz u (List.mem_cons_of_mem t hu)) hinv
      have hu2 : (rest.foldl (allocStep ["Monday", "Wednesday"] date_map now)
          ⟨st.usage, st.allocations, st.unplaced ++ [t]⟩).unplaced =
          (st.unplaced ++ [t]) ++ rest.drop (9 - occ st.usage) := hu
      have h90 : 9 - occ st.usage = 0 := by omega
      constructor
      · rw [hu2, h90]
        simp
      · intro u hu'
        rw [h90] at hu'
        simp at hu'
    · have hlt : occ st.usage < 9 := lt_of_le_of_ne hocc9 hocc
      obtain ⟨r₀, hr₀, hfree₀⟩ := exists_free_of_occ_lt st.usage hlt
      rcases hfind : suitableRoom st.usage ["Monday", "Wednesday"] t.team_size
        with _ | room
      · exfalso
        rw [hsz t (List.mem_cons_self t rest)] at hfind
        exact suitable4_ne_none_of_free hinv hr₀ hfree₀ hfind
      · have hfind4 : suitableRoom st.usage ["Monday", "Wednesday"] 4 =
            some room := by
          rw [← hsz t (List.mem_cons_self t rest)]
          exact hfind
        obtain ⟨hroom, hfree⟩ := suitable4_some_free hinv hfind4
        rw [allocStep_some hfind, hsz t (List.mem_cons_self t rest)]
        obtain hupd := addUsage4_occ st.usage hinv hroom hfree
        obtain ⟨hu, ha⟩ := ih
          ⟨addUsage st.usage ["Monday", "Wednesday"] room 4,
           st.allocations ++
             mkAllocations t room ["Monday", "Wednesday"] date_map now,
           st.unplaced⟩
          (fun u hu => hsz u (List.mem_cons_of_mem t hu)) hupd.1
        have hu2 : (rest.foldl (allocStep ["Monday", "Wednesday"] date_map now)
            ⟨addUsage st.usage ["Monday", "Wednesday"] room 4,
             st.allocations ++
               mkAllocations t room ["Monday", "Wednesday"] date_map now,
             st.unplaced⟩).unplaced =
            st.unplaced ++
              rest.drop (9 - occ (addUsage st.usage ["Monday", "Wednesday"]
                room 4)) := hu
        have ha2 : ∀ u ∈ rest.take (9 - occ (addUsage st.usage
            ["Monday", "Wednesday"] room 4)),
            ∃ a ∈ (rest.foldl (allocStep ["Monday", "Wednesday"] date_map now)
              ⟨addUsage st.usage ["Monday", "Wednesday"] room 4,
               st.allocations ++
                 mkAllocations t room ["Monday", "Wednesday"] date_map now,
               st.unplaced⟩).allocations,
              a.team_name = u.team_name := ha
        rw [hupd.2] at hu2 ha2
        have harith : 9 - occ st.usage = (9 - (occ st.usage + 1)) + 1 := by
          omega
        constructor
        · rw [hu2, harith, List.drop_succ_cons]
        · intro u hu'
          rw [harith, List.take_succ_cons] at hu'
          rcases List.mem_cons.mp hu' with rfl | hu''
          · obtain ⟨ext, hext⟩ := foldl_allocStep_alloc_prefix
              ["Monday", "Wednesday"] date_map now rest
              ⟨addUsage st.usage ["Monday", "Wednesday"] room 4,
               st.allocations ++
                 mkAllocations u room ["Monday", "Wednesday"] date_map now,
               st.unplaced⟩
            obtain ⟨a, hamem, haname⟩ := mkAllocations_mem_head u room
              "Monday" ["Wednesday"] date_map now
            refine ⟨a, ?_, haname⟩
            rw [hext]
            exact List.mem_append_left _ (List.mem_append_right _ hamem)
          · exact ha2 u hu''

theorem ATD_single_succeeds (t : TeamPref) (ht4 : t.team_size = 4)
    (ex : List WeeklyAllocation)
    (hex : ∀ a ∈ ex, a.day_of_week ∉ (["Tuesday", "Thursday"] : List String))
    (date_map : String → String) (now : String) :
    (allocate_teams_for_days [t] ["Tuesday", "Thursday"] date_map now ex).1 ≠
      [] := by
  have hzero : ∀ d r, accountExisting ["Tuesday", "Thursday"] ex d r = 0 := by
    intro d r
    rw [accountExisting_apply, if_neg]
    rintro ⟨a, ha, h1, -, h3, -⟩
    exact hex a ha (h1 ▸ h3)
  have hne : suitableRoom (accountExisting ["Tuesday", "Thursday"] ex)
      ["Tuesday", "Thursday"] t.team_size ≠ none := by
    rw [ht4]
    apply suitableRoom_ne_none (show "Room A" ∈ rooms by decide)
    · decide
    · intro d _
      rw [hzero d "Room A"]
      decide
  rcases hfind : suitableRoom (accountExisting ["Tuesday", "Thursday"] ex)
      ["Tuesday", "Thursday"] t.team_size with _ | room
  · exact absurd hfind hne
  · have hout : (allocate_teams_for_days [t] ["Tuesday", "Thursday"] date_map
        now ex).1 = mkAllocations t room ["Tuesday", "Thursday"] date_map now := by
      show ([t].foldl (allocStep ["Tuesday", "Thursday"] date_map now)
        ⟨accountExisting ["Tuesday", "Thursday"] ex, [], []⟩).allocations = _
      rw [List.foldl_cons, List.foldl_nil, allocStep_some hfind]
      simp
    rw [hout]
    simp [mkAllocations]

/-- C2 fails on the code: with ten distinct size-4 teams all asking for
Monday and Wednesday, the overflow pass of `allocate_rooms` moves the
tenth team to Tuesday and Thursday, so all ten team names receive
records and the unplaced list is empty, not nonempty as claimed. -/
theorem C2_counterexample :
    prefs10.length = 10 ∧
      (prefs10.map fun p => p.team_name).Nodup ∧
      (∀ p ∈ prefs10, p.team_size = 4 ∧
        p.preferred_days = "Monday & Wednesday") ∧
      (allocate_rooms id id prefs10 (fun d => d) "t0").2 = [] ∧
      ((allocate_rooms id id prefs10 (fun d => d) "t0").1.map
        (fun a => a.team_name)).dedup.length = 10 := by
  decide

/-- C2 (amended): for ten distinct size-4 teams all requesting Monday
and Wednesday, `allocate_rooms` places every team (nine on their
preferred pair, the tenth via the overflow pass on Tuesday and
Thursday), and the unplaced list is empty. -/
theorem C2_ten_teams_all_placed
    (orderMW orderTT : List TeamPref → List TeamPref)
    (hMW : ∀ l, (orderMW l).Perm l) (hTT : ∀ l, (orderTT l).Perm l)
    (preferences : List TeamPref)
    (hlen : preferences.length = 10)
    (h4 : ∀ p ∈ preferences, p.team_size = 4)
    (hdaysMW : ∀ p ∈ preferences, p.preferred_days = "Monday & Wednesday")
    (date_map : String → String) (now : String) :
    (allocate_rooms orderMW orderTT preferences date_map now).2 = [] ∧
      ∀ p ∈ preferences,
        ∃ a ∈ (allocate_rooms orderMW orderTT preferences date_map now).1,
          a.team_name = p.team_name := by
  have hP : ¬ preferences.isEmpty = true := by
    cases preferences with
    | nil => simp at hlen
    | cons a l => simp
  have hfiltmw : preferences.filter
      (fun p => p.preferred_days = "Monday & Wednesday") = preferences :=
    List.filter_eq_self.mpr fun p hp => by simp [hdaysMW p hp]
  have hfilttt : preferences.filter
      (fun p => p.preferred_days = "Tuesday & Thursday") = [] := by
    rw [List.filter_eq_nil_iff]
    intro p hp
    simp [hdaysMW p hp]
  rw [allocate_rooms_eq orderMW orderTT preferences date_map now hP,
    hfiltmw, hfilttt]
  have httnil : orderTT [] = [] := (hTT []).eq_nil
  rw [httnil]
  have httcall : allocate_teams_for_days [] ["Tuesday", "Thursday"] date_map
      now [] = ([], []) := rfl
  rw [httcall, List.append_nil, List.append_nil]
  set mwts := orderMW preferences with hmwtsdef
  have hPm : mwts.Perm preferences := hMW preferences
  have hlen10 : mwts.length = 10 := by rw [hPm.length_eq, hlen]
  have h4m : ∀ u ∈ mwts, u.team_size = 4 := fun u hu => h4 u (hPm.mem_iff.mp hu)
  have hInv0 : Inv4 (accountExisting ["Monday", "Wednesday"] []) :=
    ⟨fun _ => rfl, fun _ => Or.inl rfl⟩
  have hocc0 : occ (accountExisting ["Monday", "Wednesday"] []) = 0 := by decide
  obtain ⟨hu, ha⟩ := foldl_allocStep_all4 date_map now mwts
    ⟨accountExisting ["Monday", "Wednesday"] [], [], []⟩ h4m hInv0
  have hidx : 9 - occ (accountExisting ["Monday", "Wednesday"] []) = 9 := by
    rw [hocc0]
  have hu2 : (allocate_teams_for_days mwts ["Monday", "Wednesday"] date_map
      now []).2 = mwts.drop 9 := by
    show (mwts.foldl (allocStep ["Monday", "Wednesday"] date_map now)
      ⟨accountExisting ["Monday", "Wednesday"] [], [], []⟩).unplaced = _
    rw [hu, hidx]
    exact List.nil_append _
  have ha2 : ∀ u ∈ mwts.take 9,
      ∃ a ∈ (allocate_teams_for_days mwts ["Monday", "Wednesday"] date_map
        now []).1, a.team_name = u.team_name := by
    intro u hu'
    rw [← hidx] at hu'
    exact ha u hu'
  have hdlen : (mwts.drop 9).length = 1 := by rw [List.length_drop, hlen10]
  obtain ⟨tl, htl⟩ := List.length_eq_one.mp hdlen
  have htl_mem : tl ∈ mwts := (List.drop_sublist 9 mwts).subset
    (htl ▸ List.mem_singleton_self tl)
  have htl_days : tl.preferred_days = "Monday & Wednesday" :=
    hdaysMW tl (hPm.mem_iff.mp htl_mem)
  have hdisjdays : ∀ a ∈ (allocate_teams_for_days mwts ["Monday", "Wednesday"]
      date_map now []).1,
      a.day_of_week ∉ (["Tuesday", "Thursday"] : List String) := by
    intro a ha'
    obtain ⟨-, hday, -⟩ := allocate_teams_for_days_mem mwts _ date_map now [] a ha'
    intro hcon
    rcases (by simpa using hday : a.day_of_week = "Monday" ∨
        a.day_of_week = "Wednesday") with h | h <;>
      rw [h] at hcon <;> exact absurd hcon (by decide)
  have haltne : (allocate_teams_for_days [tl] ["Tuesday", "Thursday"] date_map
      now (allocate_teams_for_days mwts ["Monday", "Wednesday"] date_map
        now []).1).1 ≠ [] :=
    ATD_single_succeeds tl (h4m tl htl_mem) _ hdisjdays date_map now
  rw [hu2, htl]
  have hfold : List.foldl (overflowStep date_map now)
      ((allocate_teams_for_days mwts ["Monday", "Wednesday"] date_map now []).1,
        ([] : List String)) [tl] =
      overflowStep date_map now
        ((allocate_teams_for_days mwts ["Monday", "Wednesday"] date_map
          now []).1, []) tl := by
    rw [List.foldl_cons, List.foldl_nil]
  rw [hfold]
  have hstep : overflowStep date_map now
      ((allocate_teams_for_days mwts ["Monday", "Wednesday"] date_map
        now []).1, []) tl =
      ((allocate_teams_for_days mwts ["Monday", "Wednesday"] date_map
         now []).1 ++
       (allocate_teams_for_days [tl] ["Tuesday", "Thursday"] date_map now
         (allocate_teams_for_days mwts ["Monday", "Wednesday"] date_map
           now []).1).1, []) := by
    simp only [overflowStep]
    rw [htl_days, if_pos rfl, if_neg (by simpa [List.isEmpty_iff] using haltne)]
  rw [hstep]
  constructor
  · rfl
  · intro p hp
    have hpm : p ∈ mwts := hPm.mem_iff.mpr hp
    rw [← List.take_append_drop 9 mwts] at hpm
    rcases List.mem_append.mp hpm with hpt | hpd
    · obtain ⟨a, haA, hname⟩ := ha2 p hpt
      exact ⟨a, List.mem_append_left _ haA, hname⟩
    · rw [htl] at hpd
      obtain ⟨a, haA⟩ := List.exists_mem_of_ne_nil _ haltne
      obtain ⟨-, -, v, hv, hnamev⟩ := allocate_teams_for_days_mem [tl] _
        date_map now _ a haA
      refine ⟨a, List.mem_append_right _ haA, ?_⟩
      rw [hnamev, List.mem_singleton.mp hv, ← List.mem_singleton.mp hpd]

/-- C2 witness: the concrete scenario-B input with identity orderings. -/
theorem C2_ten_teams_witness :
    (allocate_rooms id id prefs10 (fun d => d) "t0").2 = [] ∧
      ∀ p ∈ prefs10,
        ∃ a ∈ (allocate_rooms id id prefs10 (fun d => d) "t0").1,
          a.team_name = p.team_name :=
  C2_ten_teams_all_placed id id (fun l => List.Perm.refl l)
    (fun l => List.Perm.refl l) prefs10 (by decide) (by decide) (by decide)
    (fun d => d) "t0"

theorem allocateFirstFit_spec (n : String) (days : List String)
    (date_map : String → String) (now : String)
    (daily : String → List OasisAllocation) (pd : String → List String) :
    ((allocateFirstFit n days date_map now daily pd).2 = false ∧
      (allocateFirstFit n days date_map now daily pd).1.1 = daily ∧
      (allocateFirstFit n days date_map now daily pd).1.2 = pd ∧
      ∀ d ∈ days, 11 ≤ (daily d).length) ∨
    (∃ day ∈ days, (daily day).length < 11 ∧
      (allocateFirstFit n days date_map now daily pd).2 = true ∧
      (allocateFirstFit n days date_map now daily pd).1.1 =
        (fun d => if d = day then
          daily d ++ [mkOasisAllocation n day date_map now] else daily d) ∧
      (allocateFirstFit n days date_map now daily pd).1.2 =
        (fun p => if p = n then pd p ++ [day] else pd p)) := by
  induction days with
  | nil => exact Or.inl ⟨rfl, rfl, rfl, by simp⟩
  | cons day rest ih =>
    by_cases h : (daily day).length < oasisDailyCapacity
    · right
      refine ⟨day, List.mem_cons_self day rest, h, ?_, ?_, ?_⟩ <;>
        rw [allocateFirstFit, if_pos h]
    · have hstep : allocateFirstFit n (day :: rest) date_map now daily pd =
          allocateFirstFit n rest date_map now daily pd := by
        rw [allocateFirstFit, if_neg h]
      rw [hstep]
      rcases ih with ⟨h1, h2, h3, h4⟩ | ⟨d, hd, hlt, h1, h2, h3⟩
      · refine Or.inl ⟨h1, h2, h3, ?_⟩
        intro d hd
        rcases List.mem_cons.mp hd with rfl | hd'
        · simpa [oasisDailyCapacity] using h
        · exact h4 d hd'
      · exact Or.inr ⟨d, List.mem_cons_of_mem day hd, hlt, h1, h2, h3⟩

theorem updateDaily_inv {daily : String → List OasisAllocation}
    (hinv : OasisInv daily) {day : String} (hlt : (daily day).length < 11)
    (n : String) (date_map : String → String) (now : String) :
    OasisInv (fun d => if d = day then
      daily d ++ [mkOasisAllocation n day date_map now] else daily d) := by
  intro d
  show (if d = day then daily d ++ [mkOasisAllocation n day date_map now]
      else daily d).length ≤ 11 ∧
    ∀ a ∈ (if d = day then daily d ++ [mkOasisAllocation n day date_map now]
      else daily d), a.day_of_week = d
  by_cases hd : d = day
  · subst hd
    rw [if_pos rfl]
    constructor
    · rw [List.length_append]
      simp
      omega
    · intro a ha
      rcases List.mem_append.mp ha with h | h
      · exact (hinv d).2 a h
      · rw [List.mem_singleton.mp h]
        rfl
  · rw [if_neg hd]
    exact hinv d

theorem oasisStep_fst (dayOrder : ParsedOasisPref → List String)
    (date_map : String → String) (now : String)
    (st : (String → List OasisAllocation) × (String → List String) ×
      List ParsedOasisPref) (person : ParsedOasisPref) :
    (oasisStep dayOrder date_map now st person).1 =
      (allocateFirstFit person.person_name (dayOrder person) date_map now
        st.1 st.2.1).1.1 := by
  simp only [oasisStep]
  split <;> rfl

theorem oasisStep_snd (dayOrder : ParsedOasisPref → List String)
    (date_map : String → String) (now : String)
    (st : (String → List OasisAllocation) × (String → List String) ×
      List ParsedOasisPref) (person : ParsedOasisPref) :
    (oasisStep dayOrder date_map now st person).2.1 =
      (allocateFirstFit person.person_name (dayOrder person) date_map now
        st.1 st.2.1).1.2 := by
  simp only [oasisStep]
  split <;> rfl

theorem allocateFirstFit_inv {daily : String → List OasisAllocation}
    (hinv : OasisInv daily) (n : String) (days : List String)
    (date_map : String → String) (now : String) (pd : String → List String) :
    OasisInv ((allocateFirstFit n days date_map now daily pd).1.1) := by
  rcases allocateFirstFit_spec n days date_map now daily pd with
    ⟨-, h2, -, -⟩ | ⟨day, -, hlt, -, h2, -⟩
  · rw [h2]
    exact hinv
  · rw [h2]
    exact updateDaily_inv hinv hlt n date_map now

theorem foldl_oasisStep_inv (dayOrder : ParsedOasisPref → List String)
    (date_map : String → String) (now : String) :
    ∀ (L : List ParsedOasisPref)
      (st : (String → List OasisAllocation) × (String → List String) ×
        List ParsedOasisPref),
      OasisInv st.1 →
      OasisInv ((L.foldl (oasisStep dayOrder date_map now) st).1) := by
  intro L
  induction L with
  | nil => intro st h; exact h
  | cons q rest ih =>
    intro st h
    rw [List.foldl_cons]
    refine ih _ ?_
    rw [oasisStep_fst]
    exact allocateFirstFit_inv h _ _ date_map now _

theorem retryLoop_inv (δ : Nat → ParsedOasisPref → List String)
    (date_map : String → String) (now : String) :
    ∀ (n : Nat)
      (st : (String → List OasisAllocation) × (String → List String) ×
        List ParsedOasisPref),
      OasisInv st.1 → OasisInv ((retryLoop δ date_map now n st).1) := by
  intro n
  induction n with
  | zero => intro st h; exact h
  | succ m ih =>
    intro st h
    rw [retryLoop]
    split
    · exact h
    · exact ih _ (foldl_oasisStep_inv (δ m) date_map now st.2.2 (st.1, st.2.1, []) h)

theorem bonusTryDays_inv {daily : String → List OasisAllocation}
    (hinv : OasisInv daily) (n : String) (days : List String)
    (date_map : String → String) (now : String) (pd : String → List String) :
    OasisInv ((bonusTryDays n days date_map now daily pd).1.1) := by
  induction days with
  | nil => exact hinv
  | cons day rest ih =>
    rw [bonusTryDays]
    split
    · rename_i hcond
      exact updateDaily_inv hinv hcond.2 n date_map now
    · exact ih

theorem bonusStep_fst (date_map : String → String) (now : String)
    (st : (String → List OasisAllocation) × (String → List String) × Bool)
    (person : ParsedOasisPref) :
    (bonusStep date_map now st person).1 = st.1 ∨
    (bonusStep date_map now st person).1 =
      (bonusTryDays person.person_name person.preferred_days date_map now
        st.1 st.2.1).1.1 := by
  simp only [bonusStep]
  split
  · exact Or.inl rfl
  · exact Or.inr rfl

theorem foldl_bonusStep_inv (date_map : String → String) (now : String) :
    ∀ (L : List ParsedOasisPref)
      (st : (String → List OasisAllocation) × (String → List String) × Bool),
      OasisInv st.1 →
      OasisInv ((L.foldl (bonusStep date_map now) st).1) := by
  intro L
  induction L with
  | nil => intro st h; exact h
  | cons q rest ih =>
    intro st h
    rw [List.foldl_cons]
    refine ih _ ?_
    rcases bonusStep_fst date_map now st q with heq | heq
    · rw [heq]; exact h
    · rw [heq]; exact bonusTryDays_inv h _ _ date_map now _

theorem bonusLoop_inv (σ : Nat → List ParsedOasisPref → List ParsedOasisPref)
    (parsed : List ParsedOasisPref) (date_map : String → String) (now : String) :
    ∀ (n : Nat)
      (st : (String → List OasisAllocation) × (String → List String)),
      OasisInv st.1 → OasisInv ((bonusLoop σ parsed date_map now n st).1) := by
  intro n
  induction n with
  | zero => intro st h; exact h
  | succ m ih =>
    intro st h
    rw [bonusLoop]
    have hpass : OasisInv ((bonusPass (σ m parsed) date_map now st.1 st.2).1) :=
      foldl_bonusStep_inv date_map now (σ m parsed) (st.1, st.2, false) h
    split
    · exact ih _ hpass
    · exact hpass

theorem allocate_oasis_eq (σ₀ : List ParsedOasisPref → List ParsedOasisPref)
    (δ : Nat → ParsedOasisPref → List String)
    (σ : Nat → List ParsedOasisPref → List ParsedOasisPref)
    (preferences : List OasisPreference)
    (date_map : String → String) (now : String)
    (hP : ¬ preferences.isEmpty = true) :
    allocate_oasis σ₀ δ σ preferences date_map now =
      weekdays.flatMap fun day =>
        (bonusLoop σ (parseOasisPrefs preferences) date_map now 4
          ((retryLoop δ date_map now 4
            (oasisPass (δ 4) date_map now (σ₀ (parseOasisPrefs preferences))
              (fun _ => []) (fun _ => []))).1,
           (retryLoop δ date_map now 4
            (oasisPass (δ 4) date_map now (σ₀ (parseOasisPrefs preferences))
              (fun _ => []) (fun _ => []))).2.1)).1 day := by
  rw [allocate_oasis, if_neg hP]

theorem flatMap_filter_day :
    ∀ (ws : List String), ws.Nodup →
      ∀ (daily : String → List OasisAllocation),
        (∀ w, ∀ a ∈ daily w, a.day_of_week = w) →
        ∀ d ∈ ws,
          (ws.flatMap fun day => daily day).filter
            (fun a => a.day_of_week = d) = daily d := by
  intro ws
  induction ws with
  | nil => intro _ daily _ d hd; exact absurd hd (List.not_mem_nil d)
  | cons w ws ih =>
    intro hnd daily htag d hd
    have hnd' : ws.Nodup := hnd.of_cons
    have hw_not : w ∉ ws := (List.nodup_cons.mp hnd).1
    rw [List.flatMap_cons, List.filter_append]
    have hrest_none : ∀ (hne : d ∉ ws),
        (ws.flatMap fun day => daily day).filter
          (fun a => a.day_of_week = d) = [] := by
      intro hne
      rw [List.filter_eq_nil_iff]
      intro a ha
      obtain ⟨w', hw', haw'⟩ := List.mem_flatMap.mp ha
      simp only [decide_eq_true_eq]
      rw [htag w' a haw']
      exact fun hc => hne (hc ▸ hw')
    rcases List.mem_cons.mp hd with rfl | hd'
    · rw [List.filter_eq_self.mpr (fun a ha => by simpa using htag d a ha),
        hrest_none hw_not, List.append_nil]
    · have hwd : w ≠ d := fun hc => hw_not (hc ▸ hd')
      have hnone : (daily w).filter (fun a => a.day_of_week = d) = [] := by
        rw [List.filter_eq_nil_iff]
        intro a ha
        simp only [decide_eq_true_eq]
        rw [htag w a ha]
        exact hwd
      rw [hnone, List.nil_append]
      exact ih hnd' daily htag d hd'

/-- C4: whatever the shuffles do, for every weekday the number of Oasis
allocation records `allocate_oasis` produces for that day never exceeds
the daily capacity of 11. -/
theorem C4_oasis_daily_capacity
    (σ₀ : List ParsedOasisPref → List ParsedOasisPref)
    (δ : Nat → ParsedOasisPref → List String)
    (σ : Nat → List ParsedOasisPref → List ParsedOasisPref)
    (hσ₀ : ∀ l, (σ₀ l).Perm l)
    (hδ : ∀ n p, (δ n p).Perm p.preferred_days)
    (hσ : ∀ n l, (σ n l).Perm l)
    (preferences : List OasisPreference)
    (hvalid : ∀ p ∈ preferences,
      ∀ d ∈ parse_preferred_days_from_oasis_pref p, d ∈ weekdays)
    (date_map : String → String) (now : String)
    (d : String) (hd : d ∈ weekdays) :
    ((allocate_oasis σ₀ δ σ preferences date_map now).filter
      (fun a => a.day_of_week = d)).length ≤ 11 := by
  by_cases hP : preferences.isEmpty
  · rw [allocate_oasis, if_pos hP]
    simp
  · rw [allocate_oasis_eq σ₀ δ σ preferences date_map now hP]
    have hinv0 : OasisInv (fun _ => ([] : List OasisAllocation)) := by
      intro d'
      constructor
      · simp
      · intro a ha
        exact absurd ha (List.not_mem_nil a)
    have hinv1 : OasisInv ((oasisPass (δ 4) date_map now
        (σ₀ (parseOasisPrefs preferences)) (fun _ => []) (fun _ => [])).1) :=
      foldl_oasisStep_inv (δ 4) date_map now _ _ hinv0
    have hinv2 : OasisInv ((retryLoop δ date_map now 4
        (oasisPass (δ 4) date_map now (σ₀ (parseOasisPrefs preferences))
          (fun _ => []) (fun _ => []))).1) :=
      retryLoop_inv δ date_map now 4 _ hinv1
    have hinv3 : OasisInv ((bonusLoop σ (parseOasisPrefs preferences) date_map
        now 4
        ((retryLoop δ date_map now 4
          (oasisPass (δ 4) date_map now (σ₀ (parseOasisPrefs preferences))
            (fun _ => []) (fun _ => []))).1,
         (retryLoop δ date_map now 4
          (oasisPass (δ 4) date_map now (σ₀ (parseOasisPrefs preferences))
            (fun _ => []) (fun _ => []))).2.1)).1) :=
      bonusLoop_inv σ _ date_map now 4 _ hinv2
    rw [flatMap_filter_day weekdays (by decide) _ (fun w a ha => (hinv3 w).2 a ha)
      d hd]
    exact (hinv3 d).1

/-- C4 witness: one person asking for Monday, identity shuffles, the
bound read off at Monday. -/
theorem C4_oasis_capacity_witness :
    ((allocate_oasis id (fun _ p => p.preferred_days) (fun _ l => l)
      [{ person_name := "Ann", preferred_day_1 := some "Monday",
         preferred_day_2 := none, preferred_day_3 := none,
         preferred_day_4 := none, preferred_day_5 := none,
         submission_time := none }]
      (fun day => day) "t0").filter
      (fun a => a.day_of_week = "Monday")).length ≤ 11 :=
  C4_oasis_daily_capacity id (fun _ p => p.preferred_days) (fun _ l => l)
    (fun l => List.Perm.refl l) (fun _ p => List.Perm.refl p.preferred_days)
    (fun _ l => List.Perm.refl l)
    [{ person_name := "Ann", preferred_day_1 := some "Monday",
       preferred_day_2 := none, preferred_day_3 := none,
       preferred_day_4 := none, preferred_day_5 := none,
       submission_time := none }]
    (by decide) (fun day => day) "t0" "Monday" (by decide)

theorem allocateFirstFit_mono (n : String) (days : List String)
    (date_map : String → String) (now : String)
    (daily : String → List OasisAllocation) (pd : String → List String)
    (d : String) :
    ∃ ext, (allocateFirstFit n days date_map now daily pd).1.1 d =
      daily d ++ ext := by
  rcases allocateFirstFit_spec n days date_map now daily pd with
    ⟨-, h2, -, -⟩ | ⟨day, -, -, -, h2, -⟩
  · exact ⟨[], by rw [h2, List.append_nil]⟩
  · rw [h2]
    by_cases hd : d = day
    · exact ⟨[mkOasisAllocation n day date_map now], by simp [hd]⟩
    · exact ⟨[], by simp [hd]⟩

theorem foldl_oasisStep_mono (dayOrder : ParsedOasisPref → List String)
    (date_map : String → String) (now : String) :
    ∀ (L : List ParsedOasisPref)
      (st : (String → List OasisAllocation) × (String → List String) ×
        List ParsedOasisPref) (d : String),
      ∃ ext, (L.foldl (oasisStep dayOrder date_map now) st).1 d =
        st.1 d ++ ext := by
  intro L
  induction L with
  | nil => intro st d; exact ⟨[], by simp⟩
  | cons q rest ih =>
    intro st d
    rw [List.foldl_cons]
    obtain ⟨e₂, he₂⟩ := ih (oasisStep dayOrder date_map now st q) d
    obtain ⟨e₁, he₁⟩ := allocateFirstFit_mono q.person_name (dayOrder q)
      date_map now st.1 st.2.1 d
    refine ⟨e₁ ++ e₂, ?_⟩
    rw [he₂, oasisStep_fst, he₁, List.append_assoc]

theorem retryLoop_mono (δ : Nat → ParsedOasisPref → List String)
    (date_map : String → String) (now : String) :
    ∀ (n : Nat)
      (st : (String → List OasisAllocation) × (String → List String) ×
        List ParsedOasisPref) (d : String),
      ∃ ext, (retryLoop δ date_map now n st).1 d = st.1 d ++ ext := by
  intro n
  induction n with
  | zero => intro st d; exact ⟨[], by simp [retryLoop]⟩
  | succ m ih =>
    intro st d
    rw [retryLoop]
    split
    · exact ⟨[], by simp⟩
    · obtain ⟨e₂, he₂⟩ := ih (oasisPass (δ m) date_map now st.2.2 st.1 st.2.1) d
      obtain ⟨e₁, he₁⟩ := foldl_oasisStep_mono (δ m) date_map now st.2.2
        (st.1, st.2.1, []) d
      refine ⟨e₁ ++ e₂, ?_⟩
      rw [he₂]
      show (oasisPass (δ m) date_map now st.2.2 st.1 st.2.1).1 d ++ e₂ = _
      rw [oasisPass, he₁, List.append_assoc]

theorem bonusTryDays_mono (n : String) (days : List String)
    (date_map : String → String) (now : String)
    (daily : String → List OasisAllocation) (pd : String → List String)
    (d : String) :
    ∃ ext, (bonusTryDays n days date_map now daily pd).1.1 d =
      daily d ++ ext := by
  induction days with
  | nil => exact ⟨[], by simp [bonusTryDays]⟩
  | cons day rest ih =>
    rw [bonusTryDays]
    split
    · by_cases hd : d = day
      · exact ⟨[mkOasisAllocation n day date_map now], by simp [hd]⟩
      · exact ⟨[], by simp [hd]⟩
    · exact ih

theorem foldl_bonusStep_mono (date_map : String → String) (now : String) :
    ∀ (L : List ParsedOasisPref)
      (st : (String → List OasisAllocation) × (String → List String) × Bool)
      (d : String),
      ∃ ext, (L.foldl (bonusStep date_map now) st).1 d = st.1 d ++ ext := by
  intro L
  induction L with
  | nil => intro st d; exact ⟨[], by simp⟩
  | cons q rest ih =>
    intro st d
    rw [List.foldl_cons]
    obtain ⟨e₂, he₂⟩ := ih (bonusStep date_map now st q) d
    rcases bonusStep_fst date_map now st q with heq | heq
    · exact ⟨e₂, by rw [he₂, heq]⟩
    · obtain ⟨e₁, he₁⟩ := bonusTryDays_mono q.person_name q.preferred_days
        date_map now st.1 st.2.1 d
      exact ⟨e₁ ++ e₂, by rw [he₂, heq, he₁, List.append_assoc]⟩

theorem bonusLoop_mono (σ : Nat → List ParsedOasisPref → List ParsedOasisPref)
    (parsed : List ParsedOasisPref) (date_map : String → String)
    (now : String) :
    ∀ (n : Nat)
      (st : (String → List OasisAllocation) × (String → List String))
      (d : String),
      ∃ ext, (bonusLoop σ parsed date_map now n st).1 d = st.1 d ++ ext := by
  intro n
  induction n with
  | zero => intro st d; exact ⟨[], by simp [bonusLoop]⟩
  | succ m ih =>
    intro st d
    rw [bonusLoop]
    obtain ⟨e₁, he₁⟩ := foldl_bonusStep_mono date_map now (σ m parsed)
      (st.1, st.2, false) d
    split
    · obtain ⟨e₂, he₂⟩ := ih _ d
      refine ⟨e₁ ++ e₂, ?_⟩
      rw [he₂]
      show (bonusPass _ _ _ _ _).1 d ++ e₂ = _
      rw [bonusPass, he₁, List.append_assoc]
    · exact ⟨e₁, by rw [show (bonusPass (σ m parsed) date_map now st.1
        st.2).1 d = st.1 d ++ e₁ from he₁]⟩

theorem foldl_oasisStep_total (δ₀ : ParsedOasisPref → List String)
    (hδ₀ : ∀ q, (δ₀ q).Perm q.preferred_days)
    (date_map : String → String) (now : String) :
    ∀ (L : List ParsedOasisPref) (daily : String → List OasisAllocation)
      (pd : String → List String) (fails0 : List ParsedOasisPref),
      (∀ d, (daily d).length +
        (L.filter fun p => d ∈ p.preferred_days).length ≤ 11) →
      (∀ p ∈ L, p.preferred_days ≠ []) →
      ∀ p ∈ L, ∃ d ∈ p.preferred_days,
        ∃ a ∈ (L.foldl (oasisStep δ₀ date_map now)
          (daily, pd, fails0)).1 d,
          a.person_name = p.person_name := by
  intro L
  induction L with
  | nil => intro daily pd fails0 _ _ p hp; exact absurd hp (List.not_mem_nil p)
  | cons q rest ih =>
    intro daily pd fails0 hcap hne p hp
    have hqne : q.preferred_days ≠ [] := hne q (List.mem_cons_self q rest)
    have hperm := hδ₀ q
    rcases allocateFirstFit_spec q.person_name (δ₀ q) date_map now daily pd with
      ⟨-, -, -, h4⟩ | ⟨day, hday, hlt, htrue, hd1, hd2⟩
    · exfalso
      have hδne : δ₀ q ≠ [] := by
        intro hc
        rw [hc] at hperm
        exact hqne (hperm.symm.eq_nil)
      obtain ⟨d₀, hd₀⟩ := List.exists_mem_of_ne_nil _ hδne
      have hd₀q : d₀ ∈ q.preferred_days := hperm.mem_iff.mp hd₀
      have hcnt := hcap d₀
      have hfc : ((q :: rest).filter fun p => d₀ ∈ p.preferred_days).length =
          (rest.filter fun p => d₀ ∈ p.preferred_days).length + 1 := by
        rw [List.filter_cons, if_pos (by simpa using hd₀q)]
        simp
      have := h4 d₀ hd₀
      omega
    · have hdayq : day ∈ q.preferred_days := hperm.mem_iff.mp hday
      have hstep : oasisStep δ₀ date_map now (daily, pd, fails0) q =
          ((allocateFirstFit q.person_name (δ₀ q) date_map now daily pd).1.1,
           (allocateFirstFit q.person_name (δ₀ q) date_map now daily pd).1.2,
           fails0) := by
        simp only [oasisStep]
        rw [htrue]
        simp
      rw [List.foldl_cons, hstep, hd1, hd2]
      have hcap' : ∀ d,
          ((fun d => if d = day then
            daily d ++ [mkOasisAllocation q.person_name day date_map now]
            else daily d) d).length +
          (rest.filter fun p => d ∈ p.preferred_days).length ≤ 11 := by
        intro d
        have hc := hcap d
        show (if d = day then
            daily d ++ [mkOasisAllocation q.person_name day date_map now]
            else daily d).length +
          (rest.filter fun p => d ∈ p.preferred_days).length ≤ 11
        by_cases hdd : d = day
        · subst hdd
          have hfc : ((q :: rest).filter fun p => d ∈ p.preferred_days).length =
              (rest.filter fun p => d ∈ p.preferred_days).length + 1 := by
            rw [List.filter_cons, if_pos (by simpa using hdayq)]
            simp
          rw [if_pos rfl, List.length_append, List.length_singleton]
          omega
        · have hfc : (rest.filter fun p => d ∈ p.preferred_days).length ≤
              ((q :: rest).filter fun p => d ∈ p.preferred_days).length := by
            rw [List.filter_cons]
            split
            · simp
            · exact le_refl _
          rw [if_neg hdd]
          omega
      rcases List.mem_cons.mp hp with rfl | hprest
      · refine ⟨day, hdayq, ?_⟩
        obtain ⟨ext, hext⟩ := foldl_oasisStep_mono δ₀ date_map now rest
          ((fun d => if d = day then
            daily d ++ [mkOasisAllocation p.person_name day date_map now]
            else daily d),
           (fun x => if x = p.person_name then pd x ++ [day] else pd x),
           fails0) day
        refine ⟨mkOasisAllocation p.person_name day date_map now, ?_, rfl⟩
        rw [hext]
        apply List.mem_append_left
        show mkOasisAllocation p.person_name day date_map now ∈
          (if day = day then
            daily day ++ [mkOasisAllocation p.person_name day date_map now]
            else daily day)
        rw [if_pos rfl]
        exact List.mem_append_right _ (List.mem_singleton_self _)
      · exact ih _ _ fails0 hcap' (fun u hu => hne u (List.mem_cons_of_mem q hu))
          p hprest

/-- C6: with valid, non-empty preferred-day lists, distinct names and no
weekday requested by more than 11 people, every submitted person appears
in at least one allocation record of `allocate_oasis` (the guarantee
pass places everyone). -/
theorem C6_everyone_allocated_under_slack
    (σ₀ : List ParsedOasisPref → List ParsedOasisPref)
    (δ : Nat → ParsedOasisPref → List String)
    (σ : Nat → List ParsedOasisPref → List ParsedOasisPref)
    (hσ₀ : ∀ l, (σ₀ l).Perm l)
    (hδ : ∀ n p, (δ n p).Perm p.preferred_days)
    (hσ : ∀ n l, (σ n l).Perm l)
    (preferences : List OasisPreference)
    (hnd : (preferences.map fun p => p.person_name).Nodup)
    (hvalid : ∀ p ∈ preferences,
      ∀ d ∈ parse_preferred_days_from_oasis_pref p, d ∈ weekdays)
    (hne : ∀ p ∈ preferences, parse_preferred_days_from_oasis_pref p ≠ [])
    (hcount : ∀ d ∈ weekdays,
      (preferences.filter fun p =>
        d ∈ parse_preferred_days_from_oasis_pref p).length ≤ 11)
    (date_map : String → String) (now : String) :
    ∀ p ∈ preferences,
      ∃ a ∈ allocate_oasis σ₀ δ σ preferences date_map now,
        a.person_name = p.person_name := by
  intro p hp
  have hP : ¬ preferences.isEmpty = true := by
    cases preferences with
    | nil => exact absurd hp (List.not_mem_nil p)
    | cons a l => simp
  rw [allocate_oasis_eq σ₀ δ σ preferences date_map now hP]
  have hPerm := hσ₀ (parseOasisPrefs preferences)
  have hcapL : ∀ d, ((fun _ => ([] : List OasisAllocation)) d).length +
      ((σ₀ (parseOasisPrefs preferences)).filter
        (fun q => d ∈ q.preferred_days)).length ≤ 11 := by
    intro d
    show 0 + ((σ₀ (parseOasisPrefs preferences)).filter
      (fun q => d ∈ q.preferred_days)).length ≤ 11
    rw [Nat.zero_add]
    have hflen : ((σ₀ (parseOasisPrefs preferences)).filter
        (fun q => d ∈ q.preferred_days)).length =
        ((parseOasisPrefs preferences).filter
          (fun q => d ∈ q.preferred_days)).length :=
      (hPerm.filter _).length_eq
    have hplen : ((parseOasisPrefs preferences).filter
        (fun q => d ∈ q.preferred_days)).length =
        (preferences.filter fun p =>
          d ∈ parse_preferred_days_from_oasis_pref p).length := by
      rw [parseOasisPrefs, List.filter_map, List.length_map]
      rfl
    rw [hflen, hplen]
    by_cases hd : d ∈ weekdays
    · exact hcount d hd
    · have hzero : (preferences.filter fun p =>
          d ∈ parse_preferred_days_from_oasis_pref p) = [] := by
        rw [List.filter_eq_nil_iff]
        intro q hq
        simp only [decide_eq_true_eq]
        exact fun hc => hd (hvalid q hq d hc)
      rw [hzero]
      simp
  have hneL : ∀ q ∈ σ₀ (parseOasisPrefs preferences),
      q.preferred_days ≠ [] := by
    intro q hq
    have hq' := hPerm.mem_iff.mp hq
    obtain ⟨p', hp', rfl⟩ := List.mem_map.mp hq'
    exact hne p' hp'
  have hpq : (⟨p.person_name, parse_preferred_days_from_oasis_pref p,
      p.submission_time⟩ : ParsedOasisPref) ∈ σ₀ (parseOasisPrefs preferences) :=
    hPerm.mem_iff.mpr (List.mem_map_of_mem _ hp)
  obtain ⟨d, hd, a, ha, hname⟩ := foldl_oasisStep_total (δ 4) (hδ 4) date_map now
    (σ₀ (parseOasisPrefs preferences)) (fun _ => []) (fun _ => []) []
    hcapL hneL _ hpq
  have hdweek : d ∈ weekdays := hvalid p hp d hd
  obtain ⟨e₁, he₁⟩ := retryLoop_mono δ date_map now 4
    (oasisPass (δ 4) date_map now (σ₀ (parseOasisPrefs preferences))
      (fun _ => []) (fun _ => [])) d
  obtain ⟨e₂, he₂⟩ := bonusLoop_mono σ (parseOasisPrefs preferences) date_map
    now 4
    ((retryLoop δ date_map now 4
      (oasisPass (δ 4) date_map now (σ₀ (parseOasisPrefs preferences))
        (fun _ => []) (fun _ => []))).1,
     (retryLoop δ date_map now 4
      (oasisPass (δ 4) date_map now (σ₀ (parseOasisPrefs preferences))
        (fun _ => []) (fun _ => []))).2.1) d
  refine ⟨a, ?_, hname⟩
  apply List.mem_flatMap.mpr
  refine ⟨d, hdweek, ?_⟩
  rw [he₂]
  apply List.mem_append_left
  rw [he₁]
  apply List.mem_append_left
  exact ha

/-- C6 witness: two people asking for different single days, identity
shuffles; both are placed. -/
theorem C6_everyone_allocated_witness :
    ∃ a ∈ allocate_oasis id (fun _ q => q.preferred_days) (fun _ l => l)
      [annPref, bobPref] (fun day => day) "t0",
      a.person_name = annPref.person_name :=
  C6_everyone_allocated_under_slack id (fun _ q => q.preferred_days)
    (fun _ l => l) (fun l => List.Perm.refl l)
    (fun _ q => List.Perm.refl q.preferred_days) (fun _ l => List.Perm.refl l)
    [annPref, bobPref]
    (by decide) (by decide) (by decide) (by decide) (fun day => day) "t0"
    annPref (by decide)

theorem foldl_oasisStep_full (δ₀ : ParsedOasisPref → List String)
    (hδ₀ : ∀ q, (δ₀ q).Perm q.preferred_days)
    (date_map : String → String) (now : String) :
    ∀ (L : List ParsedOasisPref) (daily : String → List OasisAllocation)
      (pd : String → List String) (fails0 : List ParsedOasisPref),
      (∀ p ∈ L, p.preferred_days = ["Monday"]) →
      ¬ (daily "Monday").length < 11 →
      L.foldl (oasisStep δ₀ date_map now) (daily, pd, fails0) =
        (daily, pd, fails0 ++ L) := by
  intro L
  induction L with
  | nil => intro daily pd fails0 _ _; simp
  | cons q rest ih =>
    intro daily pd fails0 hmon hfull
    have hq : q.preferred_days = ["Monday"] := hmon q (List.mem_cons_self q rest)
    have hδq : δ₀ q = ["Monday"] := by
      have := hδ₀ q
      rw [hq] at this
      exact List.perm_singleton.mp this
    have hfit : allocateFirstFit q.person_name (δ₀ q) date_map now daily pd =
        ((daily, pd), false) := by
      rw [hδq, allocateFirstFit, oasisDailyCapacity, if_neg hfull]
      rfl
    have hstep : oasisStep δ₀ date_map now (daily, pd, fails0) q =
        (daily, pd, fails0 ++ [q]) := by
      simp only [oasisStep]
      rw [hfit]
      simp
    rw [List.foldl_cons, hstep,
      ih daily pd (fails0 ++ [q]) (fun p hp => hmon p (List.mem_cons_of_mem q hp))
        hfull]
    simp

theorem foldl_oasisStep_monday (δ₀ : ParsedOasisPref → List String)
    (hδ₀ : ∀ q, (δ₀ q).Perm q.preferred_days)
    (date_map : String → String) (now : String) :
    ∀ (L : List ParsedOasisPref) (daily : String → List OasisAllocation)
      (pd : String → List String) (fails0 : List ParsedOasisPref),
      (∀ p ∈ L, p.preferred_days = ["Monday"]) →
      (daily "Monday").length ≤ 11 →
      ((L.foldl (oasisStep δ₀ date_map now) (daily, pd, fails0)).1 "Monday" =
        daily "Monday" ++
          (L.take (11 - (daily "Monday").length)).map
            (fun p => mkOasisAllocation p.person_name "Monday" date_map now)) ∧
      (∀ d, d ≠ "Monday" →
        (L.foldl (oasisStep δ₀ date_map now) (daily, pd, fails0)).1 d =
          daily d) ∧
      ((L.foldl (oasisStep δ₀ date_map now) (daily, pd, fails0)).2.2 =
        fails0 ++ L.drop (11 - (daily "Monday").length)) := by
  intro L
  induction L with
  | nil =>
    intro daily pd fails0 _ _
    refine ⟨by simp, fun d _ => rfl, by simp⟩
  | cons q rest ih =>
    intro daily pd fails0 hmon hle
    have hq : q.preferred_days = ["Monday"] := hmon q (List.mem_cons_self q rest)
    have hδq : δ₀ q = ["Monday"] := by
      have := hδ₀ q
      rw [hq] at this
      exact List.perm_singleton.mp this
    by_cases hfull : (daily "Monday").length < 11
    · have hfit : allocateFirstFit q.person_name (δ₀ q) date_map now daily pd =
          ((fun d => if d = "Monday" then
              daily d ++ [mkOasisAllocation q.person_name "Monday" date_map now]
              else daily d,
            fun x => if x = q.person_name then pd x ++ ["Monday"] else pd x),
           true) := by
        rw [hδq, allocateFirstFit, oasisDailyCapacity, if_pos hfull]
      have hstep : oasisStep δ₀ date_map now (daily, pd, fails0) q =
          ((fun d => if d = "Monday" then
              daily d ++ [mkOasisAllocation q.person_name "Monday" date_map now]
              else daily d),
           (fun x => if x = q.person_name then pd x ++ ["Monday"] else pd x),
           fails0) := by
        simp only [oasisStep]
        rw [hfit]
        rfl
      have hupM : (fun d => if d = "Monday" then
          daily d ++ [mkOasisAllocation q.person_name "Monday" date_map now]
          else daily d) "Monday" =
          daily "Monday" ++
            [mkOasisAllocation q.person_name "Monday" date_map now] := by
        simp
      have hlenM : ((fun d => if d = "Monday" then
          daily d ++ [mkOasisAllocation q.person_name "Monday" date_map now]
          else daily d) "Monday").length = (daily "Monday").length + 1 := by
        rw [hupM, List.length_append, List.length_singleton]
      obtain ⟨ih1, ih2, ih3⟩ := ih
        (fun d => if d = "Monday" then
          daily d ++ [mkOasisAllocation q.person_name "Monday" date_map now]
          else daily d)
        (fun x => if x = q.person_name then pd x ++ ["Monday"] else pd x)
        fails0 (fun p hp => hmon p (List.mem_cons_of_mem q hp))
        (by rw [hlenM]; omega)
      have harith : 11 - (daily "Monday").length =
          (11 - ((daily "Monday").length + 1)) + 1 := by omega
      refine ⟨?_, ?_, ?_⟩
      · rw [List.foldl_cons, hstep, ih1, hlenM, harith,
          List.take_succ_cons, List.map_cons]
        simp [List.append_assoc]
      · intro d hd
        rw [List.foldl_cons, hstep, ih2 d hd, if_neg hd]
      · rw [List.foldl_cons, hstep, ih3, hlenM, harith, List.drop_succ_cons]
    · have heq := foldl_oasisStep_full δ₀ hδ₀ date_map now (q :: rest) daily pd
        fails0 hmon hfull
      have h11 : (daily "Monday").length = 11 := by omega
      rw [heq, h11]
      refine ⟨by simp, fun d _ => rfl, by simp⟩

theorem retryLoop_monday_noop (δ : Nat → ParsedOasisPref → List String)
    (hδ : ∀ n q, (δ n q).Perm q.preferred_days)
    (date_map : String → String) (now : String) :
    ∀ (n : Nat) (daily : String → List OasisAllocation)
      (pd : String → List String) (unalloc : List ParsedOasisPref),
      (∀ p ∈ unalloc, p.preferred_days = ["Monday"]) →
      ¬ (daily "Monday").length < 11 →
      retryLoop δ date_map now n (daily, pd, unalloc) = (daily, pd, unalloc) := by
  intro n
  induction n with
  | zero => intro daily pd unalloc _ _; rfl
  | succ m ih =>
    intro daily pd unalloc hmon hfull
    rw [retryLoop]
    split
    · rfl
    · have hp : oasisPass (δ m) date_map now unalloc daily pd =
          (daily, pd, unalloc) := by
        rw [oasisPass, foldl_oasisStep_full (δ m) (hδ m) date_map now unalloc
          daily pd [] hmon hfull]
        rfl
      show retryLoop δ date_map now m
        (oasisPass (δ m) date_map now unalloc daily pd) = (daily, pd, unalloc)
      rw [hp]
      exact ih daily pd unalloc hmon hfull

theorem foldl_bonusStep_monday_noop (date_map : String → String) (now : String) :
    ∀ (people : List ParsedOasisPref) (daily : String → List OasisAllocation)
      (pd : String → List String) (b0 : Bool),
      (∀ p ∈ people, p.preferred_days = ["Monday"]) →
      ¬ (daily "Monday").length < 11 →
      people.foldl (bonusStep date_map now) (daily, pd, b0) = (daily, pd, b0) := by
  intro people
  induction people with
  | nil => intro daily pd b0 _ _; rfl
  | cons q rest ih =>
    intro daily pd b0 hmon hfull
    have hq : q.preferred_days = ["Monday"] := hmon q (List.mem_cons_self q rest)
    have hbt : bonusTryDays q.person_name q.preferred_days date_map now daily
        pd = ((daily, pd), false) := by
      rw [hq, bonusTryDays, oasisDailyCapacity, if_neg (fun hc => hfull hc.2)]
      rfl
    have hstep : bonusStep date_map now (daily, pd, b0) q = (daily, pd, b0) := by
      simp only [bonusStep]
      split
      · rfl
      · rw [hbt]
        simp
    rw [List.foldl_cons, hstep]
    exact ih daily pd b0 (fun p hp => hmon p (List.mem_cons_of_mem q hp)) hfull

theorem bonusLoop_monday_noop
    (σ : Nat → List ParsedOasisPref → List ParsedOasisPref)
    (hσ : ∀ n l, (σ n l).Perm l) (parsed : List ParsedOasisPref)
    (hall : ∀ p ∈ parsed, p.preferred_days = ["Monday"])
    (date_map : String → String) (now : String) :
    ∀ (n : Nat) (daily : String → List OasisAllocation)
      (pd : String → List String),
      ¬ (daily "Monday").length < 11 →
      bonusLoop σ parsed date_map now n (daily, pd) = (daily, pd) := by
  intro n
  cases n with
  | zero => intro daily pd _; rfl
  | succ m =>
    intro daily pd hfull
    have hpass : bonusPass (σ m parsed) date_map now daily pd =
        (daily, pd, false) := by
      rw [bonusPass]
      exact foldl_bonusStep_monday_noop date_map now (σ m parsed) daily pd false
        (fun p hp => hall p ((hσ m parsed).mem_iff.mp hp)) hfull
    rw [bonusLoop]
    show (if (bonusPass (σ m parsed) date_map now daily pd).2.2 then
        bonusLoop σ parsed date_map now m
          ((bonusPass (σ m parsed) date_map now daily pd).1,
           (bonusPass (σ m parsed) date_map now daily pd).2.1)
      else ((bonusPass (σ m parsed) date_map now daily pd).1,
        (bonusPass (σ m parsed) date_map now daily pd).2.1)) = (daily, pd)
    rw [hpass]
    rfl

theorem oasis_monday_core (δ : Nat → ParsedOasisPref → List String)
    (hδ : ∀ n q, (δ n q).Perm q.preferred_days)
    (σ : Nat → List ParsedOasisPref → List ParsedOasisPref)
    (hσ : ∀ n l, (σ n l).Perm l)
    (parsed : List ParsedOasisPref)
    (hallmon : ∀ p ∈ parsed, p.preferred_days = ["Monday"])
    (L : List ParsedOasisPref) (hLP : L.Perm parsed) (hLlen : 11 ≤ L.length)
    (date_map : String → String) (now : String) :
    (weekdays.flatMap fun day =>
      (bonusLoop σ parsed date_map now 4
        ((retryLoop δ date_map now 4
          (oasisPass (δ 4) date_map now L (fun _ => []) (fun _ => []))).1,
         (retryLoop δ date_map now 4
          (oasisPass (δ 4) date_map now L (fun _ => []) (fun _ => []))).2.1)).1
        day) =
    (L.take 11).map
      (fun p => mkOasisAllocation p.person_name "Monday" date_map now) := by
  have hLmon : ∀ q ∈ L, q.preferred_days = ["Monday"] := fun q hq =>
    hallmon q (hLP.mem_iff.mp hq)
  obtain ⟨h1M, h1O, h1F⟩ := foldl_oasisStep_monday (δ 4) (hδ 4) date_map now L
    (fun _ => []) (fun _ => []) [] hLmon (by simp)
  have hM : (oasisPass (δ 4) date_map now L (fun _ => []) (fun _ => [])).1
      "Monday" = (L.take 11).map
        (fun p => mkOasisAllocation p.person_name "Monday" date_map now) := by
    show (L.foldl (oasisStep (δ 4) date_map now)
      ((fun _ => []), (fun _ => []), [])).1 "Monday" = _
    rw [h1M]
    simp
  have hO : ∀ d, d ≠ "Monday" →
      (oasisPass (δ 4) date_map now L (fun _ => []) (fun _ => [])).1 d = [] := by
    intro d hd
    show (L.foldl (oasisStep (δ 4) date_map now)
      ((fun _ => []), (fun _ => []), [])).1 d = []
    rw [h1O d hd]
  have hF : (oasisPass (δ 4) date_map now L (fun _ => []) (fun _ => [])).2.2 =
      L.drop 11 := by
    show (L.foldl (oasisStep (δ 4) date_map now)
      ((fun _ => []), (fun _ => []), [])).2.2 = _
    rw [h1F]
    simp
  have hlen11 : ((oasisPass (δ 4) date_map now L (fun _ => [])
      (fun _ => [])).1 "Monday").length = 11 := by
    rw [hM, List.length_map, List.length_take]
    exact Nat.min_eq_left hLlen
  have hfullM : ¬ ((oasisPass (δ 4) date_map now L (fun _ => [])
      (fun _ => [])).1 "Monday").length < 11 := by
    rw [hlen11]
    omega
  have hdropmon : ∀ p ∈ (oasisPass (δ 4) date_map now L (fun _ => [])
      (fun _ => [])).2.2, p.preferred_days = ["Monday"] := by
    rw [hF]
    intro p hp
    exact hLmon p ((List.drop_sublist 11 L).subset hp)
  have hretry : retryLoop δ date_map now 4
      (oasisPass (δ 4) date_map now L (fun _ => []) (fun _ => [])) =
      oasisPass (δ 4) date_map now L (fun _ => []) (fun _ => []) :=
    retryLoop_monday_noop δ hδ date_map now 4
      (oasisPass (δ 4) date_map now L (fun _ => []) (fun _ => [])).1
      (oasisPass (δ 4) date_map now L (fun _ => []) (fun _ => [])).2.1
      (oasisPass (δ 4) date_map now L (fun _ => []) (fun _ => [])).2.2
      hdropmon hfullM
  have hbonus : bonusLoop σ parsed date_map now 4
      ((oasisPass (δ 4) date_map now L (fun _ => []) (fun _ => [])).1,
       (oasisPass (δ 4) date_map now L (fun _ => []) (fun _ => [])).2.1) =
      ((oasisPass (δ 4) date_map now L (fun _ => []) (fun _ => [])).1,
       (oasisPass (δ 4) date_map now L (fun _ => []) (fun _ => [])).2.1) :=
    bonusLoop_monday_noop σ hσ parsed hallmon date_map now 4 _ _ hfullM
  rw [hretry, hbonus]
  show (weekdays.flatMap fun day =>
    (oasisPass (δ 4) date_map now L (fun _ => []) (fun _ => [])).1 day) = _
  rw [show weekdays = "Monday" ::
    ["Tuesday", "Wednesday", "Thursday", "Friday"] from rfl]
  rw [List.flatMap_cons, List.flatMap_cons, List.flatMap_cons,
    List.flatMap_cons, List.flatMap_cons, List.flatMap_nil]
  rw [hM, hO "Tuesday" (by decide), hO "Wednesday" (by decide),
    hO "Thursday" (by decide), hO "Friday" (by decide)]
  simp

theorem length_filter_not_mem_split (xs ts ds : List String)
    (h : xs = ts ++ ds) (hnd : xs.Nodup)
    (ys : List String) (hperm : ys.Perm xs) :
    (ys.filter fun y => ¬ y ∈ ts).length = ds.length := by
  rw [(hperm.filter _).length_eq, h, List.filter_append]
  rw [h] at hnd
  obtain ⟨-, -, hdisj⟩ := List.nodup_append.mp hnd
  have h1 : ts.filter (fun y => ¬ y ∈ ts) = [] := by
    rw [List.filter_eq_nil_iff]
    intro a ha
    simp only [decide_eq_true_eq]
    exact not_not_intro ha
  have h2 : ds.filter (fun y => ¬ y ∈ ts) = ds := by
    rw [List.filter_eq_self]
    intro a ha
    simp only [decide_eq_true_eq]
    exact fun haT => hdisj haT ha
  rw [h1, h2, List.nil_append]

/-- C9: for an input of exactly 15 Oasis preferences with distinct
person names, each listing Monday as the only preferred day,
`allocate_oasis` returns exactly 11 records, all for Monday, with 11
distinct person names drawn from the input, and exactly 4 of the
submitted people appear in no record. -/
theorem C9_fifteen_monday_requests
    (σ₀ : List ParsedOasisPref → List ParsedOasisPref)
    (δ : Nat → ParsedOasisPref → List String)
    (σ : Nat → List ParsedOasisPref → List ParsedOasisPref)
    (hσ₀ : ∀ l, (σ₀ l).Perm l)
    (hδ : ∀ n q, (δ n q).Perm q.preferred_days)
    (hσ : ∀ n l, (σ n l).Perm l)
    (preferences : List OasisPreference)
    (hlen : preferences.length = 15)
    (hnd : (preferences.map fun p => p.person_name).Nodup)
    (hmon : ∀ p ∈ preferences,
      parse_preferred_days_from_oasis_pref p = ["Monday"])
    (date_map : String → String) (now : String) :
    (allocate_oasis σ₀ δ σ preferences date_map now).length = 11 ∧
    (∀ a ∈ allocate_oasis σ₀ δ σ preferences date_map now,
      a.day_of_week = "Monday") ∧
    ((allocate_oasis σ₀ δ σ preferences date_map now).map
      fun a => a.person_name).Nodup ∧
    (∀ a ∈ allocate_oasis σ₀ δ σ preferences date_map now,
      a.person_name ∈ preferences.map fun p => p.person_name) ∧
    (preferences.filter fun p =>
      ∀ a ∈ allocate_oasis σ₀ δ σ preferences date_map now,
        a.person_name ≠ p.person_name).length = 4 := by
  have hP : ¬ preferences.isEmpty = true := by
    rw [List.isEmpty_iff]
    intro h
    rw [h] at hlen
    exact absurd hlen (by decide)
  have hallmon : ∀ q ∈ parseOasisPrefs preferences,
      q.preferred_days = ["Monday"] := by
    intro q hq
    rw [parseOasisPrefs] at hq
    obtain ⟨p', hp', rfl⟩ := List.mem_map.mp hq
    exact hmon p' hp'
  have hPerm : (σ₀ (parseOasisPrefs preferences)).Perm
      (parseOasisPrefs preferences) := hσ₀ _
  have hL15 : (σ₀ (parseOasisPrefs preferences)).length = 15 := by
    rw [hPerm.length_eq, parseOasisPrefs, List.length_map, hlen]
  have hpnames : (parseOasisPrefs preferences).map (fun q => q.person_name) =
      preferences.map (fun p => p.person_name) := by
    rw [parseOasisPrefs, List.map_map]
    rfl
  have hLnd : ((σ₀ (parseOasisPrefs preferences)).map
      fun q => q.person_name).Nodup := by
    have h1 : ((parseOasisPrefs preferences).map
        fun q => q.person_name).Nodup := by
      rw [hpnames]
      exact hnd
    exact ((hPerm.map (fun q => q.person_name)).symm).nodup h1
  have hout : allocate_oasis σ₀ δ σ preferences date_map now =
      ((σ₀ (parseOasisPrefs preferences)).take 11).map
        (fun p => mkOasisAllocation p.person_name "Monday" date_map now) := by
    rw [allocate_oasis_eq σ₀ δ σ preferences date_map now hP]
    exact oasis_monday_core δ hδ σ hσ (parseOasisPrefs preferences) hallmon
      (σ₀ (parseOasisPrefs preferences)) hPerm (by rw [hL15]; omega)
      date_map now
  rw [hout]
  refine ⟨?_, ?_, ?_, ?_, ?_⟩
  · rw [List.length_map, List.length_take, hL15]
    decide
  · intro a ha
    obtain ⟨q, hq, rfl⟩ := List.mem_map.mp ha
    rfl
  · rw [List.map_map]
    exact List.Nodup.sublist
      (List.Sublist.map (fun q : ParsedOasisPref => q.person_name)
        (List.take_sublist 11 _)) hLnd
  · intro a ha
    obtain ⟨q, hq, rfl⟩ := List.mem_map.mp ha
    have hq' : q ∈ parseOasisPrefs preferences :=
      hPerm.mem_iff.mp ((List.take_sublist 11 _).subset hq)
    rw [parseOasisPrefs] at hq'
    obtain ⟨p0, hp0, rfl⟩ := List.mem_map.mp hq'
    show p0.person_name ∈ preferences.map fun p => p.person_name
    exact List.mem_map_of_mem _ hp0
  · have hiff : ∀ p : OasisPreference,
        ((∀ a ∈ ((σ₀ (parseOasisPrefs preferences)).take 11).map
            (fun q => mkOasisAllocation q.person_name "Monday" date_map now),
          a.person_name ≠ p.person_name) ↔
         ¬ p.person_name ∈ ((σ₀ (parseOasisPrefs preferences)).take 11).map
            (fun q => q.person_name)) := by
      intro p
      constructor
      · intro h hmem
        obtain ⟨q, hq, hname⟩ := List.mem_map.mp hmem
        exact h (mkOasisAllocation q.person_name "Monday" date_map now)
          (List.mem_map_of_mem _ hq) hname
      · intro h a ha hname
        obtain ⟨q, hq, rfl⟩ := List.mem_map.mp ha
        refine h ?_
        rw [← hname]
        exact List.mem_map_of_mem (fun q => q.person_name) hq
    simp only [hiff]
    have hml : (preferences.filter fun p =>
          ¬ p.person_name ∈ ((σ₀ (parseOasisPrefs preferences)).take 11).map
            (fun q => q.person_name)).length =
        ((preferences.map fun p => p.person_name).filter fun y =>
          ¬ y ∈ ((σ₀ (parseOasisPrefs preferences)).take 11).map
            (fun q => q.person_name)).length := by
      rw [List.filter_map, List.length_map]
      rfl
    rw [hml]
    have hperm2 : (preferences.map fun p => p.person_name).Perm
        ((σ₀ (parseOasisPrefs preferences)).map fun q => q.person_name) := by
      rw [← hpnames]
      exact (hPerm.map (fun q => q.person_name)).symm
    rw [length_filter_not_mem_split
      ((σ₀ (parseOasisPrefs preferences)).map fun q => q.person_name)
      (((σ₀ (parseOasisPrefs preferences)).take 11).map fun q => q.person_name)
      (((σ₀ (parseOasisPrefs preferences)).drop 11).map fun q => q.person_name)
      (by rw [← List.map_append, List.take_append_drop]) hLnd
      (preferences.map fun p => p.person_name) hperm2]
    rw [List.length_map, List.length_drop, hL15]

theorem C9_fifteen_monday_witness :
    (allocate_oasis (fun l => l) (fun _ q => q.preferred_days) (fun _ l => l)
      c9prefs (fun d => d) "t0").length = 11 ∧
    (∀ a ∈ allocate_oasis (fun l => l) (fun _ q => q.preferred_days)
        (fun _ l => l) c9prefs (fun d => d) "t0",
      a.day_of_week = "Monday") ∧
    ((allocate_oasis (fun l => l) (fun _ q => q.preferred_days)
        (fun _ l => l) c9prefs (fun d => d) "t0").map
      fun a => a.person_name).Nodup ∧
    (∀ a ∈ allocate_oasis (fun l => l) (fun _ q => q.preferred_days)
        (fun _ l => l) c9prefs (fun d => d) "t0",
      a.person_name ∈ c9prefs.map fun p => p.person_name) ∧
    (c9prefs.filter fun p =>
      ∀ a ∈ allocate_oasis (fun l => l) (fun _ q => q.preferred_days)
          (fun _ l => l) c9prefs (fun d => d) "t0",
        a.person_name ≠ p.person_name).length = 4 :=
  C9_fifteen_monday_requests (fun l => l) (fun _ q => q.preferred_days)
    (fun _ l => l) (fun l => List.Perm.refl l)
    (fun _ q => List.Perm.refl q.preferred_days) (fun _ l => List.Perm.refl l)
    c9prefs (by decide) (by decide) (by decide) (fun d => d) "t0"

theorem valuesAt_upsert (g : List (String × List String)) (key v k : String) :
    valuesAt (upsert g key v) k =
      if k = key then valuesAt g k ++ [v] else valuesAt g k := by
  induction g with
  | nil =>
    by_cases hk : k = key
    · simp [upsert, valuesAt, List.find?, hk]
    · simp [upsert, valuesAt, List.find?, hk, Ne.symm hk]
  | cons hd rest ih =>
    obtain ⟨k₀, vs⟩ := hd
    by_cases h0 : k₀ = key
    · subst h0
      by_cases hk : k = k₀
      · subst hk
        simp [upsert, valuesAt, List.find?]
      · simp [upsert, valuesAt, List.find?, hk, Ne.symm hk]
    · have hu : upsert ((k₀, vs) :: rest) key v = (k₀, vs) :: upsert rest key v := by
        simp [upsert, h0]
      by_cases hk : k = k₀
      · subst hk
        rw [hu]
        have hL : valuesAt ((k, vs) :: upsert rest key v) k = vs := by
          simp [valuesAt, List.find?]
        have hR : valuesAt ((k, vs) :: rest) k = vs := by
          simp [valuesAt, List.find?]
        rw [hL, if_neg h0, hR]
      · have hL : valuesAt ((k₀, vs) :: upsert rest key v) k =
            valuesAt (upsert rest key v) k := by
          simp [valuesAt, List.find?, Ne.symm hk]
        have hR : valuesAt ((k₀, vs) :: rest) k = valuesAt rest k := by
          simp [valuesAt, List.find?, Ne.symm hk]
        rw [hu, hL, hR, ih]

theorem valuesAt_foldl_upsert (w : List WeeklyAllocation) :
    ∀ (g : List (String × List String)) (k : String),
      valuesAt (w.foldl (fun g a =>
        upsert g (roomDayKey a.room_name a.day_of_week) a.team_name) g) k =
      valuesAt g k ++
        ((w.filter fun a => roomDayKey a.room_name a.day_of_week = k).map
          fun a => a.team_name) := by
  induction w with
  | nil => intro g k; simp
  | cons a w ih =>
    intro g k
    rw [List.foldl_cons, ih, valuesAt_upsert]
    by_cases hk : roomDayKey a.room_name a.day_of_week = k
    · rw [if_pos hk.symm, List.filter_cons_of_pos (by simp [hk]), List.map_cons]
      simp [List.append_assoc]
    · rw [if_neg (fun h => hk h.symm), List.filter_cons_of_neg (by simp [hk])]

theorem valuesAt_groupWeekly (w : List WeeklyAllocation) (k : String) :
    valuesAt (groupWeekly w) k =
      (w.filter fun a => roomDayKey a.room_name a.day_of_week = k).map
        fun a => a.team_name := by
  rw [groupWeekly, valuesAt_foldl_upsert]
  rfl

theorem upsert_keys (g : List (String × List String)) (key v : String) :
    (upsert g key v).map Prod.fst =
      if key ∈ g.map Prod.fst then g.map Prod.fst
      else g.map Prod.fst ++ [key] := by
  induction g with
  | nil => simp [upsert]
  | cons hd rest ih =>
    obtain ⟨k₀, vs⟩ := hd
    by_cases h0 : k₀ = key
    · subst h0
      simp [upsert]
    · have hu : upsert ((k₀, vs) :: rest) key v = (k₀, vs) :: upsert rest key v := by
        simp [upsert, h0]
    
      rw [hu, List.map_cons, ih, List.map_cons]
      by_cases hm : key ∈ rest.map Prod.fst
      · rw [if_pos hm, if_pos (List.mem_cons_of_mem _ hm)]
      · rw [if_neg hm, if_neg (fun h =>
          (List.mem_cons.mp h).elim (fun h1 => h0 h1.symm) hm)]
        rfl

theorem foldl_upsert_keys_nodup (w : List WeeklyAllocation) :
    ∀ g : List (String × List String), (g.map Prod.fst).Nodup →
      ((w.foldl (fun g a =>
        upsert g (roomDayKey a.room_name a.day_of_week) a.team_name) g).map
          Prod.fst).Nodup := by
  induction w with
  | nil => intro g hg; simpa using hg
  | cons a w ih =>
    intro g hg
    rw [List.foldl_cons]
    refine ih _ ?_
    rw [upsert_keys]
    by_cases hm : roomDayKey a.room_name a.day_of_week ∈ g.map Prod.fst
    · rw [if_pos hm]
      exact hg
    · rw [if_neg hm]
      rw [List.nodup_append]
      exact ⟨hg, List.nodup_singleton _,
        fun x hx hx1 => hm ((List.mem_singleton.mp hx1) ▸ hx)⟩

theorem groupWeekly_keys_nodup (w : List WeeklyAllocation) :
    ((groupWeekly w).map Prod.fst).Nodup := by
  rw [groupWeekly]
  exact foldl_upsert_keys_nodup w [] (by simp)

theorem find_of_mem_keys_nodup :
    ∀ (g : List (String × List String)), (g.map Prod.fst).Nodup →
      ∀ kv ∈ g, g.find? (fun x => x.1 = kv.1) = some kv := by
  intro g
  induction g with
  | nil => intro _ kv hkv; exact absurd hkv (List.not_mem_nil kv)
  | cons hd rest ih =>
    intro hnd kv hkv
    rw [List.map_cons, List.nodup_cons] at hnd
    rcases List.mem_cons.mp hkv with h | h
    · subst h
      rw [List.find?_cons_of_pos _ (by simp)]
    · have hne : ¬ hd.1 = kv.1 := fun he => hnd.1 (by
        rw [he]
        exact List.mem_map_of_mem Prod.fst h)
      rw [List.find?_cons_of_neg _ (by simp [hne])]
      exact ih hnd.2 kv h

theorem mem_groupWeekly_values (w : List WeeklyAllocation)
    (kv : String × List String) (h : kv ∈ groupWeekly w) :
    kv.2 = (w.filter fun a =>
      roomDayKey a.room_name a.day_of_week = kv.1).map fun a => a.team_name := by
  have h1 := find_of_mem_keys_nodup (groupWeekly w) (groupWeekly_keys_nodup w) kv h
  have h2 := valuesAt_groupWeekly w kv.1
  rw [valuesAt, h1] at h2
  exact h2

/-- C8: the claim is too strong: the validator groups the weekly
records by room-day key and flags any group with more than one RECORD,
not more than one distinct team name, so validity is equivalent to
every room-day key carrying at most one allocation record. -/
theorem C8_room_conflict_per_record (weekly : List WeeklyAllocation) :
    (validate_allocation_results weekly []).valid = true ↔
      ∀ k : String,
        (weekly.filter fun a =>
          roomDayKey a.room_name a.day_of_week = k).length ≤ 1 := by
  have hv2 : (validate_allocation_results weekly []).valid =
      (validate_allocation_results weekly []).errors.isEmpty := rfl
  have he : (validate_allocation_results weekly []).errors =
      ((groupWeekly weekly).filter fun kv => 1 < kv.2.length).map
        fun kv => roomConflictMsg kv.1 kv.2 := by
    simp [validate_allocation_results, groupOasis]
  constructor
  · intro hv k
    rw [hv2, List.isEmpty_iff, he, List.map_eq_nil_iff,
      List.filter_eq_nil_iff] at hv
    simp only [decide_eq_true_eq] at hv
    cases hfd : (groupWeekly weekly).find? (fun kv => kv.1 = k) with
    | none =>
      have hval := valuesAt_groupWeekly weekly k
      rw [valuesAt, hfd] at hval
      have h0 : ((weekly.filter fun a =>
          roomDayKey a.room_name a.day_of_week = k).map
            fun a => a.team_name).length = 0 := by
        rw [← hval]
        rfl
      rw [List.length_map] at h0
      omega
    | some kv =>
      have hkv : kv ∈ groupWeekly weekly := List.mem_of_find?_eq_some hfd
      have hlen := hv kv hkv
      have hval := valuesAt_groupWeekly weekly k
      rw [valuesAt, hfd] at hval
      have h2 : kv.2 = (weekly.filter fun a =>
          roomDayKey a.room_name a.day_of_week = k).map
            fun a => a.team_name := hval
      rw [h2, List.length_map] at hlen
      omega
  · intro hall
    rw [hv2, List.isEmpty_iff, he, List.map_eq_nil_iff,
      List.filter_eq_nil_iff]
    intro kv hkv
    simp only [decide_eq_true_eq]
    have h2 := mem_groupWeekly_values weekly kv hkv
    rw [h2, List.length_map]
    have hk := hall kv.1
    omega

/-- C8 as stated is refuted: with the same team listed twice for Room A
on Monday there is only one distinct team name for that room and day,
yet the validator reports a room conflict for the key and sets valid to
false, because it counts records per key rather than distinct teams. -/
theorem C8_counterexample :
    (validate_allocation_results c8recs []).valid = false ∧
    ((c8recs.map fun a => a.team_name).dedup.length = 1) ∧
    (validate_allocation_results c8recs []).errors =
      [roomConflictMsg (roomDayKey "Room A" "Monday") ["Team X", "Team X"]] := by
  decide

theorem C8_room_conflict_witness :
    (validate_allocation_results c8recs []).valid = true ↔
      ∀ k : String,
        (c8recs.filter fun a =>
          roomDayKey a.room_name a.day_of_week = k).length ≤ 1 :=
  C8_room_conflict_per_record c8recs
